import Mathlib

/-!
Verification development for the Telegram copy-trading signal parser
(src/telegram_signal_parser.py).

Modelling conventions:
* Message texts are `List Char`; the ASCII fragment of Python string
  operations (`upper`, `strip`, `replace`) is modelled character-wise.
* The regular-expression searches of the source are modelled by
  deterministic left-to-right scanners.  Each scanner tries a match at
  every start position, exactly like `re.search`; within one start
  position every sub-pattern of the concrete regexes is deterministic
  (the character classes of adjacent sub-patterns are disjoint), except
  for the trailing word boundary after a decimal number, where the
  one-step backtracking of the regex engine is reproduced explicitly.
* Python floats carry exact decimal literals here, so prices are `Rat`.
* Python dicts (insertion ordered) are association lists; `upsert`
  models `d[k] = v` and `lookupL` models `d.get(k)` / `k in d`.
* `time.time()` is an explicit `now` parameter.
-/

namespace TSP

/-- ASCII uppercase letter test, `[A-Z]` of the source regexes. -/
def isUpperAZ (c : Char) : Bool := 65 ≤ c.toNat && c.toNat ≤ 90

/-- ASCII lowercase letter test. -/
def isLowerAZ (c : Char) : Bool := 97 ≤ c.toNat && c.toNat ≤ 122

/-- ASCII digit test, `\d` of the source regexes. -/
def isDigitC (c : Char) : Bool := 48 ≤ c.toNat && c.toNat ≤ 57

/-- Word character of the regex `\b` boundary: `[A-Za-z0-9_]`. -/
def isWordC (c : Char) : Bool :=
  isUpperAZ c || isLowerAZ c || isDigitC c || c.toNat == 95

/-- ASCII whitespace, the `\s` class and the characters removed by
Python `str.strip`: space, tab, newline, carriage return, vertical tab,
form feed. -/
def isSpaceC (c : Char) : Bool :=
  c.toNat == 32 || c.toNat == 9 || c.toNat == 10 || c.toNat == 13 ||
  c.toNat == 11 || c.toNat == 12

/-- ASCII model of Python `str.upper` on one character. -/
def upperChar (c : Char) : Char :=
  if isLowerAZ c then Char.ofNat (c.toNat - 32) else c

/-- `text.upper()` on the character list. -/
def upperList (l : List Char) : List Char := l.map upperChar

/-- `text.replace(",", ".")` of the source, used to normalise decimal
separators before numeric matching. -/
def commaDot (c : Char) : Char := if c = ',' then '.' else c

/-- `replace` of the comma on the whole text. -/
def replComma (l : List Char) : List Char := l.map commaDot

/-- The non-breaking space (U+00A0) replaced by `parse_message`. -/
def nbspChar : Char := Char.ofNat 160

/-- Python `str.strip()`: drop leading and trailing whitespace. -/
def stripWs (l : List Char) : List Char :=
  ((l.dropWhile isSpaceC).reverse.dropWhile isSpaceC).reverse

/-- Match a literal pattern at the head of the text, returning the rest
of the text after the pattern on success. -/
def matchLit : List Char → List Char → Option (List Char)
  | [], l => some l
  | _ :: _, [] => none
  | p :: ps, c :: cs => if c = p then matchLit ps cs else none

/-- Index of the first occurrence of a literal substring, Python
`str.find` (with `none` for `-1`). -/
def findSubIdx (pat : List Char) : List Char → Option Nat
  | [] => match matchLit pat [] with
    | some _ => some 0
    | none => none
  | c :: cs => match matchLit pat (c :: cs) with
    | some _ => some 0
    | none => (findSubIdx pat cs).map (· + 1)

/-- Python `pat in text` substring containment. -/
def containsL (l pat : List Char) : Bool := (findSubIdx pat l).isSome

/-- Negative word-boundary condition on the character before the match
position (`none` at the start of the text). -/
def notWordO : Option Char → Bool
  | none => true
  | some c => !isWordC c

/-- Negative word-boundary condition on the rest of the text after a
match (end of text also qualifies). -/
def headNotWord : List Char → Bool
  | [] => true
  | c :: _ => !isWordC c

/-- `\s*`: drop the maximal run of whitespace. -/
def dropSpacesL (l : List Char) : List Char := l.dropWhile isSpaceC

/-- `\s+`: require at least one whitespace character, then drop the
maximal run. -/
def oneSpaceThen : List Char → Option (List Char)
  | [] => none
  | c :: cs => if isSpaceC c then some (dropSpacesL cs) else none

/-- Numeric value of a list of decimal digit characters. -/
def natOfDigits (l : List Char) : Nat :=
  l.foldl (fun a c => a * 10 + (c.toNat - 48)) 0

/-- Exact rational value of the decimal literal with integer digits
`ds` and fractional digits `fs`; models `float(...)` on the matched
price text.  Written with `mkRat` so that the value reduces inside the
kernel. -/
def ratOfDigits (ds fs : List Char) : ℚ :=
  mkRat (natOfDigits ds * 10 ^ fs.length + natOfDigits fs) (10 ^ fs.length)

/-- The decimal literal `n / 10^k`, used to state expected prices. -/
def ratDec (n k : Nat) : ℚ := mkRat n (10 ^ k)

/-- `PRICE_RE = (?:\d+(?:\.\d+)?)` matched greedily at the head of the
text, returning the value and the rest of the text.  The optional
fractional group is taken whenever a dot with at least one digit
follows, exactly as the greedy regex does when nothing constrains the
characters after the number. -/
def parsePrice (l : List Char) : Option (ℚ × List Char) :=
  let ds := l.takeWhile isDigitC
  let r1 := l.dropWhile isDigitC
  if ds.isEmpty then none
  else
    match r1 with
    | '.' :: r2 =>
      let fs := r2.takeWhile isDigitC
      if fs.isEmpty then some (ratOfDigits ds [], r1)
      else some (ratOfDigits ds fs, r2.dropWhile isDigitC)
    | _ => some (ratOfDigits ds [], r1)

/-- `\b(PRICE_RE)\b` tried at the head of the text (`prev` is the
character before it).  When the trailing boundary after the fractional
digits fails the regex engine backtracks and drops the optional
fractional group; the dot then witnesses the trailing boundary, so the
integer part alone matches.  That backtracking is reproduced here. -/
def parsePriceB (prev : Option Char) (l : List Char) : Option ℚ :=
  if notWordO prev then
    let ds := l.takeWhile isDigitC
    let r1 := l.dropWhile isDigitC
    if ds.isEmpty then none
    else
      match r1 with
      | '.' :: r2 =>
        let fs := r2.takeWhile isDigitC
        if fs.isEmpty then some (ratOfDigits ds [])
        else if headNotWord (r2.dropWhile isDigitC) then some (ratOfDigits ds fs)
        else some (ratOfDigits ds [])
      | _ => if headNotWord r1 then some (ratOfDigits ds []) else none
  else none

/-- Search for `\b(PRICE_RE)\b` anywhere in the text (the lazy `.*?` of
the stop-loss and take-profit regexes): the first position where the
bounded number matches wins. -/
def findPriceBAux (prev : Option Char) : List Char → Option ℚ
  | [] => none
  | c :: cs =>
    match parsePriceB prev (c :: cs) with
    | some q => some q
    | none => findPriceBAux (some c) cs

/-- Pattern literals of the source file. -/
def litPREZZO : List Char := "PREZZO".toList

def litSTOP : List Char := "STOP".toList

def litLOSS : List Char := "LOSS".toList

def litTAKE : List Char := "TAKE".toList

def litPROFIT : List Char := "PROFIT".toList

def litBUY : List Char := "BUY".toList

def litSELL : List Char := "SELL".toList

def litBUYLIMIT : List Char := "BUY LIMIT".toList

def litSELLLIMIT : List Char := "SELL LIMIT".toList

def litBUYSTOP : List Char := "BUY STOP".toList

def litSELLSTOP : List Char := "SELL STOP".toList

def litANNULLARE : List Char := "ANNULLARE".toList

def litDIRETTA : List Char := "DIRETTA".toList

def litMERCATO : List Char := "MERCATO".toList

def litESECUZIONE : List Char := "ESECUZIONE A MERCATO".toList

def litAMERCATO : List Char := "A MERCATO".toList

def litMODIFICARE : List Char := "MODIFICARE".toList

def litIL : List Char := "IL".toList

def litDI : List Char := "DI".toList

def litINGRESSO : List Char := "INGRESSO".toList

def litDA : List Char := "DA".toList

def litA : List Char := "A".toList

/-- `re.search(r"PREZZO\s+(PRICE_RE)", t)`: scan every start position
for the literal label followed by whitespace and a number. -/
def findPrezzoAux : List Char → Option ℚ
  | [] => none
  | c :: cs =>
    match matchLit litPREZZO (c :: cs) with
    | some r1 =>
      match oneSpaceThen r1 with
      | some r2 =>
        match parsePrice r2 with
        | some (q, _) => some q
        | none => findPrezzoAux cs
      | none => findPrezzoAux cs
    | none => findPrezzoAux cs

/-- `re.search(r"STOP\s*LOSS.*?\b(PRICE_RE)\b", t, re.DOTALL)`: at each
start position match the two literals separated by optional whitespace,
then take the first bounded number anywhere after them; on failure the
search resumes at the next start position.  The character before the
number search is the final letter of the label, a word character. -/
def findStopLossAux : List Char → Option ℚ
  | [] => none
  | c :: cs =>
    match matchLit litSTOP (c :: cs) with
    | some r1 =>
      match matchLit litLOSS (dropSpacesL r1) with
      | some r2 =>
        match findPriceBAux (some 'S') r2 with
        | some q => some q
        | none => findStopLossAux cs
      | none => findStopLossAux cs
    | none => findStopLossAux cs

/-- `re.search(r"TAKE\s*PROFIT.*?\b(PRICE_RE)\b", t, re.DOTALL)`. -/
def findTakeProfitAux : List Char → Option ℚ
  | [] => none
  | c :: cs =>
    match matchLit litTAKE (c :: cs) with
    | some r1 =>
      match matchLit litPROFIT (dropSpacesL r1) with
      | some r2 =>
        match findPriceBAux (some 'T') r2 with
        | some q => some q
        | none => findTakeProfitAux cs
      | none => findTakeProfitAux cs
    | none => findTakeProfitAux cs

/-- `re.search(r"\bANNULLARE\b", t)` as a Boolean. -/
def findAnnAux (prev : Option Char) : List Char → Bool
  | [] => false
  | c :: cs =>
    (if notWordO prev then
      match matchLit litANNULLARE (c :: cs) with
      | some r => if headNotWord r then true else findAnnAux (some c) cs
      | none => findAnnAux (some c) cs
    else findAnnAux (some c) cs)

/-- Whole-word containment of the cancel keyword. -/
def hasWordANNULLARE (l : List Char) : Bool := findAnnAux none l

/-- `re.search(r"\(\s*(PRICE_RE)\s*\)", t)`: optional reference entry
price in parentheses in a cancel message. -/
def findParenAux : List Char → Option ℚ
  | [] => none
  | c :: cs =>
    (if c = '(' then
      match parsePrice (dropSpacesL cs) with
      | some (q, r) =>
        match dropSpacesL r with
        | ')' :: _ => some q
        | _ => findParenAux cs
      | none => findParenAux cs
    else findParenAux cs)

/-- `[A-Z]{3}` at the head of the text. -/
def take3U : List Char → Option (List Char × List Char)
  | a :: b :: c :: rest =>
    if isUpperAZ a && isUpperAZ b && isUpperAZ c then some ([a, b, c], rest)
    else none
  | _ => none

/-- `[A-Z]{6}` at the head of the text. -/
def take6U : List Char → Option (List Char × List Char)
  | a :: b :: c :: d :: e :: f :: rest =>
    if isUpperAZ a && isUpperAZ b && isUpperAZ c && isUpperAZ d &&
        isUpperAZ e && isUpperAZ f then
      some ([a, b, c, d, e, f], rest)
    else none
  | _ => none

/-- `\b([A-Z]{3})\s*/\s*([A-Z]{3})\b` tried at the head of the text,
returning the six captured letters. -/
def matchPairAt (prev : Option Char) (l : List Char) : Option (List Char) :=
  if notWordO prev then
    match take3U l with
    | none => none
    | some (g1, r1) =>
      match dropSpacesL r1 with
      | '/' :: r2 =>
        match take3U (dropSpacesL r2) with
        | none => none
        | some (g2, r3) => if headNotWord r3 then some (g1 ++ g2) else none
      | _ => none
  else none

/-- Search for the slash-separated currency pair. -/
def findPairAux (prev : Option Char) : List Char → Option (List Char)
  | [] => none
  | c :: cs =>
    match matchPairAt prev (c :: cs) with
    | some g => some g
    | none => findPairAux (some c) cs

/-- `\b([A-Z]{6})\b` tried at the head of the text. -/
def matchSixAt (prev : Option Char) (l : List Char) : Option (List Char) :=
  if notWordO prev then
    match take6U l with
    | none => none
    | some (g, r) => if headNotWord r then some g else none
  else none

/-- Search for the bare six-letter token. -/
def findSixAux (prev : Option Char) : List Char → Option (List Char)
  | [] => none
  | c :: cs =>
    match matchSixAt prev (c :: cs) with
    | some g => some g
    | none => findSixAux (some c) cs

/-- `normalize_symbol`: strip, uppercase, remove spaces and slashes,
append the configured symbol suffix (`SYMBOL_POSTFIX`, passed here as
the explicit parameter `sfx`). -/
def normalize_symbol (sfx raw : List Char) : List Char :=
  ((upperList (stripWs raw)).filter (fun c => !(c = ' '))).filter
      (fun c => !(c = '/')) ++ sfx

/-- `extract_symbol`: first the slash pair, then the bare six-letter
token, on the uppercased text. -/
def extract_symbol (sfx text : List Char) : Option (List Char) :=
  let u := upperList text
  match findPairAux none u with
  | some g => some (normalize_symbol sfx g)
  | none =>
    match findSixAux none u with
    | some g => some (normalize_symbol sfx g)
    | none => none

/-- Trade side. -/
inductive Side where
  | BUY
  | SELL
deriving DecidableEq, Repr

/-- Order types of the source (`OrderType` literal). -/
inductive OrderType where
  | MARKET
  | BUY_LIMIT
  | SELL_LIMIT
  | BUY_STOP
  | SELL_STOP
deriving DecidableEq, Repr

/-- Actions of the source (`Action` literal). -/
inductive Action where
  | OPEN
  | UPDATE
  | CANCEL
deriving DecidableEq, Repr

/-- `extract_side`: BUY or SELL by containment, leftmost occurrence
winning when both appear. -/
def extract_side (text : List Char) : Option Side :=
  let t := upperList text
  if containsL t litBUY && !containsL t litSELL then some Side.BUY
  else if containsL t litSELL && !containsL t litBUY then some Side.SELL
  else
    match findSubIdx litBUY t, findSubIdx litSELL t with
    | some iBuy, some iSell =>
      some (if iBuy < iSell then Side.BUY else Side.SELL)
    | _, _ => none

/-- `extract_pending_type`: substring match against the four fixed
pending-order phrases, in source order. -/
def extract_pending_type (text : List Char) : Option OrderType :=
  let t := upperList text
  if containsL t litBUYLIMIT then some OrderType.BUY_LIMIT
  else if containsL t litSELLLIMIT then some OrderType.SELL_LIMIT
  else if containsL t litBUYSTOP then some OrderType.BUY_STOP
  else if containsL t litSELLSTOP then some OrderType.SELL_STOP
  else none

/-- Result record of `extract_entry_sl_tp`. -/
structure EntrySlTp where
  entry : ℚ
  sl : ℚ
  tp : ℚ
deriving DecidableEq, Repr

/-- `extract_entry_sl_tp`: labelled numeric fields on the uppercased
text; a missing label yields zero. -/
def extract_entry_sl_tp (text : List Char) : EntrySlTp :=
  let t := upperList text
  { entry := (findPrezzoAux t).getD 0
    sl := (findStopLossAux t).getD 0
    tp := (findTakeProfitAux t).getD 0 }

/-- Result record of `parse_update`. -/
structure UpdInfo where
  old_entry : ℚ
  new_entry : ℚ
deriving DecidableEq, Repr

/-- One start position of the update regex
`MODIFICARE\s+IL\s+PREZZO\s+DI\s+INGRESSO\s+DA\s+(P)\s+A\s+(P)`. -/
def litMODCHAIN : List (List Char) :=
  [litMODIFICARE, litIL, litPREZZO, litDI, litINGRESSO, litDA]

/-- Match a sequence of literal words separated by `\s+`, with a final
`\s+` after the last one. -/
def matchWordsSp : List (List Char) → List Char → Option (List Char)
  | [], l => some l
  | w :: ws, l =>
    match matchLit w l with
    | none => none
    | some r =>
      match oneSpaceThen r with
      | none => none
      | some r2 => matchWordsSp ws r2

/-- One start position of the update regex: the literal word chain,
then the old price, `\s+A\s+`, and the new price. -/
def matchModAt (l : List Char) : Option (ℚ × ℚ) :=
  match matchWordsSp litMODCHAIN l with
  | none => none
  | some r =>
    match parsePrice r with
    | none => none
    | some (q1, r1) =>
      match oneSpaceThen r1 with
      | none => none
      | some r2 =>
        match matchLit litA r2 with
        | none => none
        | some r3 =>
          match oneSpaceThen r3 with
          | none => none
          | some r4 =>
            match parsePrice r4 with
            | none => none
            | some (q2, _) => some (q1, q2)

/-- Search for the update phrase anywhere in the text. -/
def findModAux : List Char → Option (ℚ × ℚ)
  | [] => none
  | c :: cs =>
    match matchModAt (c :: cs) with
    | some p => some p
    | none => findModAux cs

/-- `parse_update`: uppercase, normalise commas, then search the fixed
Italian modify-entry-price phrase. -/
def parse_update (text : List Char) : Option UpdInfo :=
  let t := replComma (upperList text)
  (findModAux t).map (fun p => { old_entry := p.1, new_entry := p.2 })

/-- Result record of `parse_cancel`. -/
structure CancelInfo where
  symbol : List Char
  ptype : OrderType
  side : Side
  entry : ℚ
deriving DecidableEq, Repr

/-- `parse_cancel`: requires the whole word ANNULLARE; then pending
type, side and symbol must all resolve; an optional parenthesised
number is the reference entry price. -/
def parse_cancel (sfx text : List Char) : Option CancelInfo :=
  let t := replComma (upperList text)
  if !hasWordANNULLARE t then none
  else
    let ptype := extract_pending_type t
    let side := extract_side t
    let sym := extract_symbol sfx t
    let entry := (findParenAux t).getD 0
    match ptype, side, sym with
    | some pt, some sd, some sy =>
      some { symbol := sy, ptype := pt, side := sd, entry := entry }
    | _, _, _ => none

/-- `is_market_direct`: the two direct-market keyword patterns. -/
def is_market_direct (text : List Char) : Bool :=
  let t := upperList text
  (containsL t litDIRETTA && containsL t litMERCATO) ||
    containsL t litESECUZIONE

/-- Decimal digits of a natural number, most significant first
(`str(n)` for the message ids of the source; the fuel 40 covers every
number below 10^40). -/
def natDigitsAux : Nat → Nat → List Char
  | 0, _ => []
  | _ + 1, 0 => []
  | fuel + 1, n + 1 =>
    Char.ofNat (48 + (n + 1) % 10) :: natDigitsAux fuel ((n + 1) / 10)

/-- `str(n)` for a natural number. -/
def natToDigits (n : Nat) : List Char :=
  if n = 0 then ['0'] else (natDigitsAux 40 n).reverse

/-- Command id `f"tg_{msg.id}"`. -/
def tgStr (id : Nat) : List Char := "tg_".toList ++ natToDigits id

/-- Classification kind strings stored in `meta`. -/
def kindCancel : List Char := "cancel".toList

def kindUpdate : List Char := "update".toList

def kindMarket : List Char := "market_direct".toList

def kindPending : List Char := "pending".toList

/-- Diagnostic metadata of a command (source message id and
classification kind). -/
structure MetaInfo where
  tg_id : Nat
  kind : List Char
deriving DecidableEq, Repr

/-- The `Command` dataclass of the source. -/
structure Command where
  cmd_id : List Char
  action : Action
  symbol : List Char
  type : OrderType
  side : Side
  entry : ℚ
  sl : ℚ
  tp : ℚ
  old_entry : ℚ
  order_id : List Char
  meta : Option MetaInfo
deriving DecidableEq, Repr

/-- The inbound message object consumed from the transport collaborator
(`telethon` message): integer id, optional text body, optional id of
the message it replies to. -/
structure TgMessage where
  id : Nat
  message : Option (List Char)
  reply_to_msg_id : Option Nat
deriving DecidableEq, Repr

/-- Normalisation pipeline of `parse_message`: strip, replace the
non-breaking space, uppercase, replace comma by period. -/
def msgTransform (txt : List Char) : List Char :=
  replComma (upperList ((stripWs txt).map (fun c =>
    if c = nbspChar then ' ' else c)))

/-- The classification cascade of `parse_message`, applied to the
normalised text `t` of a non-empty message. -/
def classify (sfx : List Char) (id : Nat) (t : List Char) : Option Command :=
  match parse_cancel sfx t with
  | some cx =>
    some { cmd_id := tgStr id, action := Action.CANCEL, symbol := cx.symbol,
           type := cx.ptype, side := cx.side, entry := cx.entry, sl := 0,
           tp := 0, old_entry := 0, order_id := [],
           meta := some { tg_id := id, kind := kindCancel } }
  | none =>
    match parse_update t with
    | some up =>
      let ptype := (extract_pending_type t).getD OrderType.SELL_LIMIT
      let side :=
        match extract_side t with
        | some sd => sd
        | none => if containsL t litSELL then Side.SELL else Side.BUY
      match extract_symbol sfx t with
      | none => none
      | some sym =>
        some { cmd_id := tgStr id, action := Action.UPDATE, symbol := sym,
               type := ptype, side := side, entry := up.new_entry, sl := 0,
               tp := 0, old_entry := up.old_entry, order_id := [],
               meta := some { tg_id := id, kind := kindUpdate } }
    | none =>
      match extract_symbol sfx t with
      | none => none
      | some sym =>
        let ptype := extract_pending_type t
        match extract_side t with
        | none => none
        | some side =>
          let values := extract_entry_sl_tp t
          if is_market_direct t || (ptype.isNone && containsL t litAMERCATO) then
            some { cmd_id := tgStr id, action := Action.OPEN, symbol := sym,
                   type := OrderType.MARKET, side := side, entry := 0,
                   sl := values.sl, tp := values.tp, old_entry := 0,
                   order_id := [],
                   meta := some { tg_id := id, kind := kindMarket } }
          else
            match ptype with
            | some pt =>
              if values.entry ≤ 0 then none
              else
                some { cmd_id := tgStr id, action := Action.OPEN,
                       symbol := sym, type := pt, side := side,
                       entry := values.entry, sl := values.sl,
                       tp := values.tp, old_entry := 0, order_id := [],
                       meta := some { tg_id := id, kind := kindPending } }
            | none => none

/-- `parse_message`: empty or absent text yields no command, otherwise
the normalised text goes through the classification cascade. -/
def parse_message (sfx : List Char) (m : TgMessage) : Option Command :=
  match m.message with
  | none => none
  | some txt =>
    if (stripWs txt).isEmpty then none
    else classify sfx m.id (msgTransform txt)

/-- The default configured symbol suffix (`SYMBOL_POSTFIX`). -/
def sfxSTD : List Char := "-STD".toList

/-- `d[k] = v` on an insertion-ordered Python dict: update in place,
else append.  The string conversion `str(msg_id)` of the source is
injective, so dicts keyed by `str(msg_id)` are keyed directly by the
id here. -/
def upsert {κ α : Type} [DecidableEq κ] (k : κ) (v : α) :
    List (κ × α) → List (κ × α)
  | [] => [(k, v)]
  | (k2, v2) :: rest =>
    if k2 = k then (k2, v) :: rest else (k2, v2) :: upsert k v rest

/-- `d.get(k)` / `d[k]` on a dict. -/
def lookupL {κ α : Type} [DecidableEq κ] (k : κ) :
    List (κ × α) → Option α
  | [] => none
  | (k2, v2) :: rest => if k2 = k then some v2 else lookupL k rest

/-- Stable insertion of a dedup entry into a list ordered by ascending
timestamp (before the first entry with a timestamp not smaller). -/
def insTs (x : Nat × Nat) : List (Nat × Nat) → List (Nat × Nat)
  | [] => [x]
  | y :: ys => if x.2 ≤ y.2 then x :: y :: ys else y :: insTs x ys

/-- Stable sort of the dedup entries by ascending timestamp, the
`sorted(STATE["processed_ids"].items(), key=lambda kv: kv[1])` of
`mark_processed` (Python sort is stable, and stable sorting by the
timestamp key determines the result uniquely). -/
def sortByTs : List (Nat × Nat) → List (Nat × Nat)
  | [] => []
  | x :: xs => insTs x (sortByTs xs)

/-- `already_processed`: membership of the message id in the dedup
table. -/
def already_processed (st : List (Nat × Nat)) (id : Nat) : Bool :=
  (lookupL id st).isSome

/-- `mark_processed`: record the id with its timestamp; when the table
then holds more than 20000 entries, delete the first 2000 keys of the
entries sorted by ascending timestamp; (the `save_state` document write
has no in-memory effect). -/
def mark_processed (st : List (Nat × Nat)) (id ts : Nat) :
    List (Nat × Nat) :=
  let st2 := upsert id ts st
  if 20000 < st2.length then
    let dropKeys := ((sortByTs st2).take 2000).map Prod.fst
    st2.filter (fun kv => !(dropKeys.contains kv.1))
  else st2

/-- The message record persisted by `link_message_to_order`. -/
structure MsgRec where
  order_id : List Char
  msg_id : Nat
  action : Action
  symbol : List Char
  type : OrderType
  side : Side
  entry : ℚ
  sl : ℚ
  tp : ℚ
  timestamp : Nat
deriving DecidableEq, Repr

/-- The order aggregate persisted by `link_message_to_order`. -/
structure OrderRec where
  order_id : List Char
  first_msg_id : Nat
  messages : List Nat
  symbol : List Char
  side : Side
  status : List Char
  latest_action : Action
  created_at : Nat
  updated_at : Nat
deriving DecidableEq, Repr

/-- The persisted message-order database (`DB`). -/
structure Db where
  messages : List (Nat × MsgRec)
  orders : List (List Char × OrderRec)
deriving DecidableEq, Repr

/-- The only order status ever written. -/
def statusActive : List Char := "active".toList

/-- Order id minted from a message id, `f"order_msg\x7bmsg.id\x7d"`. -/
def mintOrderId (id : Nat) : List Char :=
  "order_msg".toList ++ natToDigits id

/-- `get_order_id_for_msg`. -/
def get_order_id_for_msg (db : Db) (id : Nat) : Option (List Char) :=
  (lookupL id db.messages).map (fun r => r.order_id)

/-- `link_message_to_order`: store the message record, then create the
order aggregate or append the message to it. -/
def link_message_to_order (db : Db) (msg_id : Nat) (oid : List Char)
    (cmd : Command) (now : Nat) : Db :=
  let messages := upsert msg_id
    { order_id := oid, msg_id := msg_id, action := cmd.action,
      symbol := cmd.symbol, type := cmd.type, side := cmd.side,
      entry := cmd.entry, sl := cmd.sl, tp := cmd.tp, timestamp := now }
    db.messages
  let orders :=
    match lookupL oid db.orders with
    | none =>
      upsert oid
        { order_id := oid, first_msg_id := msg_id, messages := [msg_id],
          symbol := cmd.symbol, side := cmd.side, status := statusActive,
          latest_action := cmd.action, created_at := now, updated_at := now }
        db.orders
    | some o =>
      upsert oid
        { order_id := o.order_id, first_msg_id := o.first_msg_id,
          messages := if msg_id ∈ o.messages then o.messages
                      else o.messages ++ [msg_id],
          symbol := o.symbol, side := o.side, status := o.status,
          latest_action := cmd.action, created_at := o.created_at,
          updated_at := now }
        db.orders
  { messages := messages, orders := orders }

/-- Whole process state of the live listener: dedup table, ledger
database, and the sequence of commands emitted to the output sinks. -/
structure SysState where
  processed : List (Nat × Nat)
  db : Db
  out : List Command
deriving DecidableEq, Repr

/-- The live `handler`: skip already-processed ids; otherwise parse,
resolve the order id from the reply target, link, emit, and mark
processed (messages that fail to classify are still marked). -/
def handler (sfx : List Char) (now : Nat) (m : TgMessage) (s : SysState) :
    SysState :=
  if already_processed s.processed m.id then s
  else
    match parse_message sfx m with
    | some cmd =>
      let oid :=
        match m.reply_to_msg_id with
        | some linked =>
          match get_order_id_for_msg s.db linked with
          | some o => o
          | none => mintOrderId m.id
        | none => mintOrderId m.id
      let cmd2 := { cmd with order_id := oid }
      { processed := mark_processed s.processed m.id now,
        db := link_message_to_order s.db m.id oid cmd2 now,
        out := s.out ++ [cmd2] }
    | none => { s with processed := mark_processed s.processed m.id now }

/-- Rendering of an action into its CSV cell. -/
def actionStr : Action → List Char
  | Action.OPEN => "OPEN".toList
  | Action.UPDATE => "UPDATE".toList
  | Action.CANCEL => "CANCEL".toList

/-- Rendering of an order type into its CSV cell. -/
def typeStr : OrderType → List Char
  | OrderType.MARKET => "MARKET".toList
  | OrderType.BUY_LIMIT => "BUY_LIMIT".toList
  | OrderType.SELL_LIMIT => "SELL_LIMIT".toList
  | OrderType.BUY_STOP => "BUY_STOP".toList
  | OrderType.SELL_STOP => "SELL_STOP".toList

/-- Rendering of a side into its CSV cell. -/
def sideStr : Side → List Char
  | Side.BUY => "BUY".toList
  | Side.SELL => "SELL".toList

/-- Floor of a non-negative rational as a natural number. -/
def ratFloorNat (q : ℚ) : Nat := q.num.toNat / q.den

/-- `f"\x7bx:.5f\x7d"` for the non-negative prices of this program:
scale by 10^5, round to the nearest integer, and print the integer part
followed by exactly five fractional digits. -/
def fmt5 (q : ℚ) : List Char :=
  let n := ratFloorNat (q * 100000 + 1 / 2)
  natToDigits (n / 100000) ++
    '.' :: (List.replicate (5 - (natToDigits (n % 100000)).length) '0' ++
      natToDigits (n % 100000))

/-- One numeric CSV cell: the literal "0" for a zero (falsy) value,
five-decimal fixed-point rendering otherwise. -/
def fmtNum (q : ℚ) : List Char := if q = 0 then ['0'] else fmt5 q

/-- The CSV row written by `append_csv` for one command. -/
def csvRowOf (cmd : Command) : List (List Char) :=
  [cmd.cmd_id, cmd.order_id, actionStr cmd.action, cmd.symbol,
   typeStr cmd.type, sideStr cmd.side, fmtNum cmd.entry, fmtNum cmd.sl,
   fmtNum cmd.tp, fmtNum cmd.old_entry]

/-- Number of characters after the last dot of a rendered cell (the
count of decimal digits when the cell contains a dot). -/
def decCount (s : List Char) : Nat :=
  (s.reverse.takeWhile (fun c => !(c = '.'))).length

/-! ### Association-list (dict) lemmas -/

theorem lookupL_upsert_self {κ α : Type} [DecidableEq κ] (k : κ) (v : α)
    (l : List (κ × α)) : lookupL k (upsert k v l) = some v := by
  induction l with
  | nil => simp [upsert, lookupL]
  | cons hd tl ih =>
    obtain ⟨k2, v2⟩ := hd
    by_cases hk : k2 = k <;> simp [upsert, lookupL, hk, ih]

theorem lookupL_upsert_ne {κ α : Type} [DecidableEq κ] {k k2 : κ}
    (h : k2 ≠ k) (v : α) (l : List (κ × α)) :
    lookupL k2 (upsert k v l) = lookupL k2 l := by
  have hks : ¬(k = k2) := fun hh => h hh.symm
  induction l with
  | nil => simp [upsert, lookupL, hks]
  | cons hd tl ih =>
    obtain ⟨k3, v3⟩ := hd
    by_cases hk : k3 = k
    · subst hk
      simp [upsert, lookupL, hks]
    · by_cases hk2 : k3 = k2 <;> simp [upsert, lookupL, hk, hk2, h, ih]

theorem upsert_of_lookupL_none {κ α : Type} [DecidableEq κ] {k : κ}
    {l : List (κ × α)} (h : lookupL k l = none) (v : α) :
    upsert k v l = l ++ [(k, v)] := by
  induction l with
  | nil => simp [upsert]
  | cons hd tl ih =>
    obtain ⟨k2, v2⟩ := hd
    by_cases hk : k2 = k
    · simp [lookupL, hk] at h
    · simp [lookupL, hk] at h
      simp [upsert, hk, ih h]

theorem lookupL_eq_none_iff {κ α : Type} [DecidableEq κ] {k : κ}
    {l : List (κ × α)} : lookupL k l = none ↔ k ∉ l.map Prod.fst := by
  induction l with
  | nil => simp [lookupL]
  | cons hd tl ih =>
    obtain ⟨k2, v2⟩ := hd
    by_cases hk : k2 = k
    · subst hk
      simp [lookupL]
    · have hk2 : ¬(k = k2) := fun hh => hk hh.symm
      simp [lookupL, hk, hk2, ih]

theorem lookupL_filter {κ α : Type} [DecidableEq κ] {k : κ} {v : α}
    {l : List (κ × α)} {p : κ × α → Bool} (h : lookupL k l = some v)
    (hp : p (k, v) = true) : lookupL k (l.filter p) = some v := by
  induction l with
  | nil => simp [lookupL] at h
  | cons hd tl ih =>
    obtain ⟨k2, v2⟩ := hd
    by_cases hk : k2 = k
    · subst hk
      simp [lookupL] at h
      subst h
      simp [List.filter, hp, lookupL]
    · simp [lookupL, hk] at h
      by_cases hhd : p (k2, v2) <;>
        simp [List.filter, hhd, lookupL, hk, ih h]

theorem lookupL_filter_none {κ α : Type} [DecidableEq κ] {k : κ}
    {l : List (κ × α)} {p : κ × α → Bool} (h : lookupL k l = none) :
    lookupL k (l.filter p) = none := by
  induction l with
  | nil => simp [List.filter, lookupL]
  | cons hd tl ih =>
    obtain ⟨k2, v2⟩ := hd
    by_cases hk : k2 = k
    · simp [lookupL, hk] at h
    · simp [lookupL, hk] at h
      by_cases hhd : p (k2, v2) <;>
        simp [List.filter, hhd, lookupL, hk, ih h]

theorem length_upsert_le {κ α : Type} [DecidableEq κ] (k : κ) (v : α)
    (l : List (κ × α)) : (upsert k v l).length ≤ l.length + 1 := by
  induction l with
  | nil => simp [upsert]
  | cons hd tl ih =>
    obtain ⟨k2, v2⟩ := hd
    by_cases hk : k2 = k <;> simp [upsert, hk] <;> omega

theorem keys_upsert_some {κ α : Type} [DecidableEq κ] {k : κ} {w : α}
    {l : List (κ × α)} (h : lookupL k l = some w) (v : α) :
    (upsert k v l).map Prod.fst = l.map Prod.fst := by
  induction l with
  | nil => simp [lookupL] at h
  | cons hd tl ih =>
    obtain ⟨k2, v2⟩ := hd
    by_cases hk : k2 = k
    · simp [upsert, hk]
    · simp [lookupL, hk] at h
      simp [upsert, hk, ih h]

/-! ### Stable-sort lemmas -/

theorem insTs_perm (x : Nat × Nat) (l : List (Nat × Nat)) :
    List.Perm (insTs x l) (x :: l) := by
  induction l with
  | nil => simp [insTs]
  | cons y ys ih =>
    by_cases h : x.2 ≤ y.2
    · simp [insTs, h]
    · simp only [insTs, if_neg h]
      exact (ih.cons y).trans (List.Perm.swap x y ys)

theorem sortByTs_perm (l : List (Nat × Nat)) : List.Perm (sortByTs l) l := by
  induction l with
  | nil => simp [sortByTs]
  | cons x xs ih => exact (insTs_perm x (sortByTs xs)).trans (ih.cons x)

theorem insTs_pairwise {l : List (Nat × Nat)} (x : Nat × Nat)
    (h : l.Pairwise (fun a b => a.2 ≤ b.2)) :
    (insTs x l).Pairwise (fun a b => a.2 ≤ b.2) := by
  induction l with
  | nil => simp [insTs]
  | cons y ys ih =>
    rcases List.pairwise_cons.mp h with ⟨hy, hys⟩
    by_cases hle : x.2 ≤ y.2
    · simp only [insTs, if_pos hle]
      refine List.pairwise_cons.mpr ⟨?_, h⟩
      intro z hz
      rcases List.mem_cons.mp hz with rfl | hz
      · exact hle
      · exact le_trans hle (hy z hz)
    · simp only [insTs, if_neg hle]
      refine List.pairwise_cons.mpr ⟨?_, ih hys⟩
      intro z hz
      have hz2 : z ∈ x :: ys := (insTs_perm x ys).mem_iff.mp hz
      rcases List.mem_cons.mp hz2 with rfl | hz2
      · omega
      · exact hy z hz2

theorem sortByTs_pairwise (l : List (Nat × Nat)) :
    (sortByTs l).Pairwise (fun a b => a.2 ≤ b.2) := by
  induction l with
  | nil => simp [sortByTs]
  | cons x xs ih => exact insTs_pairwise x ih

theorem insTs_append_big {a x : Nat × Nat} (h : a.2 ≤ x.2)
    (S : List (Nat × Nat)) : insTs a (S ++ [x]) = insTs a S ++ [x] := by
  induction S with
  | nil => simp [insTs, h]
  | cons y ys ih =>
    by_cases hle : a.2 ≤ y.2 <;> simp [insTs, hle, ih]

theorem sortByTs_append_big {l : List (Nat × Nat)} {x : Nat × Nat}
    (h : ∀ y ∈ l, y.2 ≤ x.2) : sortByTs (l ++ [x]) = sortByTs l ++ [x] := by
  induction l with
  | nil => simp [sortByTs, insTs]
  | cons a as ih =>
    have ha : a.2 ≤ x.2 := h a (List.mem_cons_self a as)
    have has : ∀ y ∈ as, y.2 ≤ x.2 := fun y hy => h y (List.mem_cons_of_mem a hy)
    show insTs a (sortByTs (as ++ [x])) = insTs a (sortByTs as) ++ [x]
    rw [ih has]
    exact insTs_append_big ha (sortByTs as)

/-! ### Dedup-store lemmas -/

theorem mark_processed_lookupL_self {st : List (Nat × Nat)} {id ts : Nat}
    (hts : ∀ kv ∈ st, kv.2 ≤ ts) (hf : lookupL id st = none) :
    lookupL id (mark_processed st id ts) = some ts := by
  have hup : upsert id ts st = st ++ [(id, ts)] := upsert_of_lookupL_none hf ts
  have hlook : lookupL id (upsert id ts st) = some ts := lookupL_upsert_self id ts st
  unfold mark_processed
  by_cases hlen : 20000 < (upsert id ts st).length
  · simp only [hlen, if_pos]
    refine lookupL_filter hlook ?_
    have hsort : sortByTs (upsert id ts st) = sortByTs st ++ [(id, ts)] := by
      rw [hup]
      exact sortByTs_append_big (fun y hy => hts y hy)
    have hlenS : 2000 ≤ (sortByTs st).length := by
      have h1 : (sortByTs st).length = st.length := (sortByTs_perm st).length_eq
      have h2 : (upsert id ts st).length = st.length + 1 := by
        rw [hup]; simp
      omega
    have htake : (sortByTs (upsert id ts st)).take 2000 = (sortByTs st).take 2000 := by
      rw [hsort]
      exact List.take_append_of_le_length hlenS
    have hid : id ∉ (((sortByTs (upsert id ts st)).take 2000).map Prod.fst) := by
      rw [htake]
      intro hmem
      rcases List.mem_map.mp hmem with ⟨kv, hkv, hfst⟩
      have hkv2 : kv ∈ sortByTs st := List.mem_of_mem_take hkv
      have hkv3 : kv ∈ st := (sortByTs_perm st).mem_iff.mp hkv2
      have : id ∈ st.map Prod.fst := hfst ▸ List.mem_map_of_mem Prod.fst hkv3
      exact lookupL_eq_none_iff.mp hf this
    have hid2 : id ∉ List.take 2000 (List.map Prod.fst
        (sortByTs (upsert id ts st))) := by
      rw [← List.map_take]
      exact hid
    simp [hid2]
  · simpa [hlen] using hlook

theorem mark_processed_lookupL_none {st : List (Nat × Nat)} {id ts k : Nat}
    (hk : k ≠ id) (h : lookupL k st = none) :
    lookupL k (mark_processed st id ts) = none := by
  have hup : lookupL k (upsert id ts st) = none := by
    rw [lookupL_upsert_ne hk ts st]; exact h
  unfold mark_processed
  by_cases hlen : 20000 < (upsert id ts st).length
  · simp only [hlen, if_pos]
    exact lookupL_filter_none hup
  · simpa [hlen] using hup

/-! ### Handler lemmas -/

/-- An already-processed message id makes the live handler a no-op. -/
theorem handler_of_processed {sfx : List Char} {now : Nat} {m : TgMessage}
    {s : SysState} (h : already_processed s.processed m.id = true) :
    handler sfx now m s = s := by
  simp [handler, h]

/-- For a fresh message id the handler marks the id processed in both
classification branches. -/
theorem handler_processed_eq (sfx : List Char) (now : Nat) (m : TgMessage)
    (s : SysState) (h : already_processed s.processed m.id = false) :
    (handler sfx now m s).processed = mark_processed s.processed m.id now := by
  unfold handler
  rw [h]
  simp only [Bool.false_eq_true, if_false]
  cases parse_message sfx m <;> rfl

/-- The handler emits at most one command. -/
theorem handler_out_le (sfx : List Char) (now : Nat) (m : TgMessage)
    (s : SysState) : (handler sfx now m s).out.length ≤ s.out.length + 1 := by
  unfold handler
  by_cases h : already_processed s.processed m.id = true
  · simp [h]
  · rw [Bool.not_eq_true] at h
    rw [h]
    simp only [Bool.false_eq_true, if_false]
    cases parse_message sfx m <;> simp

/-- The handler creates at most one ledger message record. -/
theorem handler_msgs_le (sfx : List Char) (now : Nat) (m : TgMessage)
    (s : SysState) :
    (handler sfx now m s).db.messages.length ≤ s.db.messages.length + 1 := by
  unfold handler
  by_cases h : already_processed s.processed m.id = true
  · simp [h]
  · rw [Bool.not_eq_true] at h
    rw [h]
    simp only [Bool.false_eq_true, if_false]
    cases parse_message sfx m with
    | none => simp
    | some cmd =>
      simp only [link_message_to_order]
      exact length_upsert_le _ _ _

/-! ### Claim C4: live-mode idempotence -/

/-- C4.  In live mode, for every message id, processing the same
message id twice yields at most one emitted Command and at most one
Ledger message-record creation; the second invocation is a no-op (it
does not even refresh the dedup timestamp, so nothing beyond the
timestamp refresh happens).  The clock hypothesis states that no stored
dedup timestamp lies in the future of the first processing time. -/
theorem live_mode_idempotent (sfx : List Char) (now1 now2 : Nat)
    (m m2 : TgMessage) (s : SysState) (hid : m2.id = m.id)
    (hts : ∀ kv ∈ s.processed, kv.2 ≤ now1) :
    handler sfx now2 m2 (handler sfx now1 m s) = handler sfx now1 m s ∧
    (handler sfx now1 m s).out.length ≤ s.out.length + 1 ∧
    (handler sfx now1 m s).db.messages.length ≤ s.db.messages.length + 1 := by
  refine ⟨?_, handler_out_le sfx now1 m s, handler_msgs_le sfx now1 m s⟩
  by_cases hp : already_processed s.processed m.id = true
  · have h1 : handler sfx now1 m s = s := handler_of_processed hp
    rw [h1]
    exact handler_of_processed (by rw [hid]; exact hp)
  · have hpf : already_processed s.processed m.id = false :=
      Bool.not_eq_true _ ▸ Bool.of_not_eq_true hp
    have hf : lookupL m.id s.processed = none := by
      unfold already_processed at hpf
      cases hl : lookupL m.id s.processed with
      | none => rfl
      | some w => rw [hl] at hpf; simp at hpf
    have hsome : lookupL m.id (mark_processed s.processed m.id now1)
        = some now1 := mark_processed_lookupL_self hts hf
    have hp2 : already_processed (handler sfx now1 m s).processed m2.id
        = true := by
      rw [handler_processed_eq sfx now1 m s hpf]
      unfold already_processed
      rw [hid, hsome]
      rfl
    exact handler_of_processed hp2

/-- Concrete instantiation data for the idempotence witness: an empty
process state and a market-open message. -/
def c4State : SysState :=
  { processed := [], db := { messages := [], orders := [] }, out := [] }

def c4Msg : TgMessage :=
  { id := 500, message := some "BUY DIRETTA A MERCATO CAD/CHF".toList,
    reply_to_msg_id := none }

/-- Witness for C4 at a concrete message and state. -/
theorem live_mode_idempotent_witness :
    handler sfxSTD 6 c4Msg (handler sfxSTD 5 c4Msg c4State) =
      handler sfxSTD 5 c4Msg c4State ∧
    (handler sfxSTD 5 c4Msg c4State).out.length ≤ c4State.out.length + 1 ∧
    (handler sfxSTD 5 c4Msg c4State).db.messages.length ≤
      c4State.db.messages.length + 1 :=
  live_mode_idempotent sfxSTD 5 6 c4Msg c4Msg c4State rfl
    (by intro kv hkv; simp [c4State] at hkv)

/-! ### Claim C10: empty or absent text -/

/-- C10.  A message whose text body is absent, empty, or whitespace
only yields no command: `parse_message` returns before any
classification is attempted. -/
theorem empty_message_no_command (sfx : List Char) (m : TgMessage)
    (h : m.message = none ∨
      ∃ txt, m.message = some txt ∧ txt.all isSpaceC = true) :
    parse_message sfx m = none := by
  rcases h with h | ⟨txt, htxt, hsp⟩
  · simp [parse_message, h]
  · have hstrip : stripWs txt = [] := by
      have hdrop : txt.dropWhile isSpaceC = [] :=
        List.dropWhile_eq_nil_iff.mpr (fun x hx => (List.all_eq_true.mp hsp) x hx)
      simp [stripWs, hdrop]
    simp [parse_message, htxt, hstrip]

/-- Witness for C10: a whitespace-only message body. -/
theorem empty_message_no_command_witness :
    parse_message sfxSTD
      { id := 1, message := some "   ".toList, reply_to_msg_id := none }
      = none :=
  empty_message_no_command sfxSTD _ (Or.inr ⟨"   ".toList, rfl, by decide⟩)

/-! ### Claim C5: pending opens require a positive entry -/

/-- Classification-level invariant: an OPEN command with a non-MARKET
order type always carries a positive entry. -/
theorem classify_open_pending_pos (sfx : List Char) (id : Nat)
    (t : List Char) (cmd : Command) (h : classify sfx id t = some cmd)
    (hact : cmd.action = Action.OPEN)
    (htyp : cmd.type ≠ OrderType.MARKET) : 0 < cmd.entry := by
  unfold classify at h
  cases hc : parse_cancel sfx t with
  | some cx =>
    rw [hc] at h
    simp only [Option.some.injEq] at h
    rw [← h] at hact
    simp at hact
  | none =>
    rw [hc] at h
    simp only [] at h
    cases hu : parse_update t with
    | some up =>
      rw [hu] at h
      simp only [] at h
      cases hsym : extract_symbol sfx t with
      | none => rw [hsym] at h; simp at h
      | some sym =>
        rw [hsym] at h
        simp only [Option.some.injEq] at h
        rw [← h] at hact
        simp at hact
    | none =>
      rw [hu] at h
      simp only [] at h
      cases hsym : extract_symbol sfx t with
      | none => rw [hsym] at h; simp at h
      | some sym =>
        rw [hsym] at h
        simp only [] at h
        cases hsd : extract_side t with
        | none => rw [hsd] at h; simp at h
        | some sd =>
          rw [hsd] at h
          simp only [] at h
          by_cases hmk : (is_market_direct t ||
              ((extract_pending_type t).isNone && containsL t litAMERCATO))
              = true
          · rw [if_pos hmk] at h
            simp only [Option.some.injEq] at h
            rw [← h] at htyp
            simp at htyp
          · rw [if_neg hmk] at h
            cases hpt : extract_pending_type t with
            | none => rw [hpt] at h; simp at h
            | some pt =>
              rw [hpt] at h
              simp only [] at h
              by_cases hent : (extract_entry_sl_tp t).entry ≤ 0
              · rw [if_pos hent] at h
                simp at h
              · rw [if_neg hent] at h
                simp only [Option.some.injEq] at h
                rw [← h]
                exact not_le.mp hent

/-- Classification-level suppression: a pending open with a missing or
non-positive labelled entry price yields no command at all. -/
theorem classify_pending_no_entry (sfx : List Char) (id : Nat)
    (t : List Char) (pt : OrderType) (hc : parse_cancel sfx t = none)
    (hu : parse_update t = none) (hpt : extract_pending_type t = some pt)
    (hmd : is_market_direct t = false)
    (hent : (extract_entry_sl_tp t).entry ≤ 0) :
    classify sfx id t = none := by
  unfold classify
  rw [hc]
  simp only []
  rw [hu]
  simp only []
  cases hsym : extract_symbol sfx t with
  | none => rfl
  | some sym =>
    simp only []
    cases hsd : extract_side t with
    | none => rfl
    | some sd =>
      simp only []
      have hmk : (is_market_direct t ||
          ((extract_pending_type t).isNone && containsL t litAMERCATO))
          = false := by
        rw [hmd, hpt]
        rfl
      rw [hmk]
      simp only [Bool.false_eq_true, if_false]
      rw [hpt]
      simp only []
      rw [if_pos hent]

/-- C5.  Every command produced by `parse_message` with action OPEN and
a pending (non-MARKET) order type has a positive entry; and a message
classified as a pending open whose labelled entry price is absent or
not positive produces no command at all. -/
theorem pending_open_entry_positive :
    (∀ (sfx : List Char) (m : TgMessage) (cmd : Command),
      parse_message sfx m = some cmd → cmd.action = Action.OPEN →
      cmd.type ≠ OrderType.MARKET → 0 < cmd.entry) ∧
    (∀ (sfx : List Char) (id : Nat) (rep : Option Nat) (txt : List Char)
      (pt : OrderType),
      parse_cancel sfx (msgTransform txt) = none →
      parse_update (msgTransform txt) = none →
      extract_pending_type (msgTransform txt) = some pt →
      is_market_direct (msgTransform txt) = false →
      (extract_entry_sl_tp (msgTransform txt)).entry ≤ 0 →
      parse_message sfx
        { id := id, message := some txt, reply_to_msg_id := rep } = none) := by
  constructor
  · intro sfx m cmd h hact htyp
    unfold parse_message at h
    cases hm : m.message with
    | none => rw [hm] at h; simp at h
    | some txt =>
      rw [hm] at h
      simp only [] at h
      by_cases hs : (stripWs txt).isEmpty
      · rw [if_pos hs] at h
        simp at h
      · rw [if_neg hs] at h
        exact classify_open_pending_pos sfx m.id (msgTransform txt) cmd h hact htyp
  · intro sfx id rep txt pt hc hu hpt hmd hent
    unfold parse_message
    simp only []
    by_cases hs : (stripWs txt).isEmpty
    · rw [if_pos hs]
    · rw [if_neg hs]
      exact classify_pending_no_entry sfx id (msgTransform txt) pt hc hu hpt hmd hent

/-- Witness for C5: the spec example "BUY LIMIT EUR/USD" with no
labelled price produces no command, and a pending open with a labelled
price has a positive entry. -/
theorem pending_open_entry_positive_witness :
    parse_message sfxSTD
      { id := 2, message := some "BUY LIMIT EUR/USD".toList,
        reply_to_msg_id := none } = none ∧
    (0 : ℚ) <
      (Command.mk "tg_3".toList Action.OPEN "EURUSD-STD".toList
        OrderType.BUY_LIMIT Side.BUY (ratDec 107 2) 0 0 0 []
        (some { tg_id := 3, kind := kindPending })).entry := by
  constructor
  · exact pending_open_entry_positive.2 sfxSTD 2 none "BUY LIMIT EUR/USD".toList
      OrderType.BUY_LIMIT (by decide) (by decide) (by decide) (by decide)
      (by decide)
  · exact pending_open_entry_positive.1 sfxSTD
      { id := 3, message := some "BUY LIMIT EUR/USD PREZZO 1.07000".toList,
        reply_to_msg_id := none } _ (by decide) rfl (by decide)

/-! ### Idempotence of the normalisation pipeline -/

theorem toNat_ofNat_upper {m : Nat} (h1 : 65 ≤ m) (h2 : m ≤ 90) :
    (Char.ofNat m).toNat = m := by
  interval_cases m <;> rfl

theorem upperChar_idem (c : Char) : upperChar (upperChar c) = upperChar c := by
  by_cases h : isLowerAZ c = true
  · have e1 : upperChar c = Char.ofNat (c.toNat - 32) := by
      unfold upperChar
      rw [if_pos h]
    have hb : 97 ≤ c.toNat ∧ c.toNat ≤ 122 := by
      simpa [isLowerAZ] using h
    have ht : (Char.ofNat (c.toNat - 32)).toNat = c.toNat - 32 :=
      toNat_ofNat_upper (by omega) (by omega)
    have hlow : isLowerAZ (Char.ofNat (c.toNat - 32)) = false := by
      simp only [isLowerAZ, ht]
      simp only [Bool.and_eq_false_iff, decide_eq_false_iff_not]
      omega
    rw [e1]
    unfold upperChar
    rw [hlow]
    simp
  · have e1 : upperChar c = c := by
      unfold upperChar
      rw [if_neg h]
    rw [e1, e1]

theorem upperCommaChar_idem (c : Char) :
    commaDot (upperChar (commaDot (upperChar c))) = commaDot (upperChar c) := by
  by_cases hd : upperChar c = ','
  · rw [hd]
    rfl
  · have e : commaDot (upperChar c) = upperChar c := by
      unfold commaDot
      rw [if_neg hd]
    rw [e, upperChar_idem, e]

/-- The last two normalisation stages (uppercase then comma-to-period)
are idempotent, so the extra normalisation performed inside
`parse_cancel` and `parse_update` has no effect on an already
normalised text. -/
theorem replComma_upperList_fix (l : List Char) :
    replComma (upperList (replComma (upperList l))) = replComma (upperList l) := by
  simp only [replComma, upperList, List.map_map]
  apply List.map_congr_left
  intro c _
  exact upperCommaChar_idem c

theorem msgTransform_fix (txt : List Char) :
    replComma (upperList (msgTransform txt)) = msgTransform txt :=
  replComma_upperList_fix _

/-- An empty stripped body normalises to the empty text. -/
theorem msgTransform_of_empty {txt : List Char}
    (h : (stripWs txt).isEmpty = true) : msgTransform txt = [] := by
  unfold msgTransform
  rw [List.isEmpty_iff.mp h]
  rfl

/-! ### Claim C1: cancel keyword with unresolvable fields -/

/-- With an unresolvable pending type, side, or symbol, `parse_cancel`
yields nothing. -/
theorem parse_cancel_none_of_missing (sfx text : List Char)
    (hmiss : extract_pending_type (replComma (upperList text)) = none ∨
      extract_side (replComma (upperList text)) = none ∨
      extract_symbol sfx (replComma (upperList text)) = none) :
    parse_cancel sfx text = none := by
  simp only [parse_cancel]
  cases hkw : hasWordANNULLARE (replComma (upperList text)) with
  | false => simp
  | true =>
    simp only [Bool.not_true, Bool.false_eq_true, if_false]
    rcases hmiss with h | h | h
    · rw [h]
    · rw [h]
      cases extract_pending_type (replComma (upperList text)) <;> rfl
    · rw [h]
      cases extract_pending_type (replComma (upperList text)) <;>
        cases extract_side (replComma (upperList text)) <;> rfl

/-- Every command built by the classification cascade after a failed
cancel parse carries a non-CANCEL action. -/
theorem classify_action_of_cancel_none (sfx : List Char) (id : Nat)
    (t : List Char) (hpc : parse_cancel sfx t = none) :
    ∀ cmd, classify sfx id t = some cmd → cmd.action ≠ Action.CANCEL := by
  intro cmd h
  unfold classify at h
  rw [hpc] at h
  simp only [] at h
  cases hu : parse_update t with
  | some up =>
    rw [hu] at h
    simp only [] at h
    cases hsym : extract_symbol sfx t with
    | none => rw [hsym] at h; simp at h
    | some sym =>
      rw [hsym] at h
      simp only [Option.some.injEq] at h
      rw [← h]
      simp
  | none =>
    rw [hu] at h
    simp only [] at h
    cases hsym : extract_symbol sfx t with
    | none => rw [hsym] at h; simp at h
    | some sym =>
      rw [hsym] at h
      simp only [] at h
      cases hsd : extract_side t with
      | none => rw [hsd] at h; simp at h
      | some sd =>
        rw [hsd] at h
        simp only [] at h
        by_cases hmk : (is_market_direct t ||
            ((extract_pending_type t).isNone && containsL t litAMERCATO))
            = true
        · rw [if_pos hmk] at h
          simp only [Option.some.injEq] at h
          rw [← h]
          simp
        · rw [if_neg hmk] at h
          cases hpt : extract_pending_type t with
          | none => rw [hpt] at h; simp at h
          | some pt =>
            rw [hpt] at h
            simp only [] at h
            by_cases hent : (extract_entry_sl_tp t).entry ≤ 0
            · rw [if_pos hent] at h
              simp at h
            · rw [if_neg hent] at h
              simp only [Option.some.injEq] at h
              rw [← h]
              simp

/-- C1 (amended).  When the cancel keyword is present but at least one
of pending type, side, or symbol does not resolve, the message is not
classified as cancel: `parse_cancel` fails, and any command the message
still yields through the later update and open rules has a non-CANCEL
action.  (The original claim, that no command at all is produced, is
refuted by `cancel_fallthrough_counterexample`.) -/
theorem cancel_missing_fields_not_cancel (sfx : List Char) (m : TgMessage)
    (txt : List Char) (hm : m.message = some txt)
    (hkw : hasWordANNULLARE (msgTransform txt) = true)
    (hmiss : extract_pending_type (msgTransform txt) = none ∨
      extract_side (msgTransform txt) = none ∨
      extract_symbol sfx (msgTransform txt) = none) :
    parse_cancel sfx (msgTransform txt) = none ∧
    ∀ cmd, parse_message sfx m = some cmd → cmd.action ≠ Action.CANCEL := by
  have hpc : parse_cancel sfx (msgTransform txt) = none := by
    apply parse_cancel_none_of_missing sfx (msgTransform txt)
    rw [msgTransform_fix txt]
    exact hmiss
  refine ⟨hpc, ?_⟩
  intro cmd h
  unfold parse_message at h
  rw [hm] at h
  simp only [] at h
  by_cases hs : (stripWs txt).isEmpty
  · rw [if_pos hs] at h
    simp at h
  · rw [if_neg hs] at h
    exact classify_action_of_cancel_none sfx m.id (msgTransform txt) hpc cmd h

/-- The C1 counterexample text: the cancel keyword with no resolvable
pending type, followed by a well-formed update phrase. -/
def c1Txt : List Char :=
  "ANNULLARE MODIFICARE IL PREZZO DI INGRESSO DA 1.10000 A 1.20000 EUR/USD".toList

/-- Counterexample to C1 as stated: a message containing the cancel
keyword whose pending type (and side) do not resolve is not dropped; it
falls through and yields an UPDATE command. -/
theorem cancel_fallthrough_counterexample :
    hasWordANNULLARE (msgTransform c1Txt) = true ∧
    extract_pending_type (msgTransform c1Txt) = none ∧
    parse_message sfxSTD
      { id := 11, message := some c1Txt, reply_to_msg_id := none } =
      some { cmd_id := "tg_11".toList, action := Action.UPDATE,
             symbol := "EURUSD-STD".toList, type := OrderType.SELL_LIMIT,
             side := Side.BUY, entry := ratDec 12 1, sl := 0, tp := 0,
             old_entry := ratDec 11 1, order_id := [],
             meta := some { tg_id := 11, kind := kindUpdate } } :=
  ⟨by decide, by decide, by decide⟩

/-- Witness for C1 at the concrete counterexample input. -/
theorem cancel_missing_fields_witness :
    parse_cancel sfxSTD (msgTransform c1Txt) = none :=
  (cancel_missing_fields_not_cancel sfxSTD
    { id := 11, message := some c1Txt, reply_to_msg_id := none } c1Txt rfl
    (by decide) (Or.inl (by decide))).1

/-! ### Claim C3: the update rule -/

/-- The Italian update example text of the specification. -/
def c3Txt : List Char :=
  "(SELL LIMIT GBP/USD) - MODIFICARE IL PREZZO DI INGRESSO DA 1.33300 A 1.33100".toList

/-- The English phrasing used by the claim and the spec example. -/
def c3TxtEnglish : List Char :=
  "(SELL LIMIT GBP/USD) - MODIFY ENTRY PRICE FROM 1.33300 TO 1.33100".toList

/-- The market-open example text of the specification. -/
def c8Txt : List Char := "BUY DIRETTA A MERCATO CAD/CHF".toList

/-- The C8 counterexample text: cancel keyword plus a fully resolvable
cancel field set together with direct-market phrasing. -/
def c8CancelTxt : List Char :=
  "ANNULLARE BUY LIMIT CAD/CHF DIRETTA A MERCATO".toList

/-- Classification of a message matching the update phrase after a
failed cancel parse: with a resolvable symbol an UPDATE command is
built with the defaulting fallbacks of the source; without one the
message yields nothing. -/
theorem classify_update (sfx : List Char) (id : Nat) (t : List Char)
    (u : UpdInfo) (hc : parse_cancel sfx t = none)
    (hu : parse_update t = some u) :
    (extract_symbol sfx t = none → classify sfx id t = none) ∧
    (∀ sym, extract_symbol sfx t = some sym →
      classify sfx id t = some
        { cmd_id := tgStr id, action := Action.UPDATE, symbol := sym,
          type := (extract_pending_type t).getD OrderType.SELL_LIMIT,
          side :=
            match extract_side t with
            | some sd => sd
            | none =>
              if containsL t litSELL then Side.SELL else Side.BUY,
          entry := u.new_entry, sl := 0, tp := 0, old_entry := u.old_entry,
          order_id := [],
          meta := some { tg_id := id, kind := kindUpdate } }) := by
  constructor
  · intro hsym
    simp only [classify]
    rw [hc]
    simp only []
    rw [hu]
    simp only []
    rw [hsym]
  · intro sym hsym
    simp only [classify]
    rw [hc]
    simp only []
    rw [hu]
    simp only []
    rw [hsym]

/-- C3 (amended).  A message not classified as cancel which matches the
fixed Italian phrase "MODIFICARE IL PREZZO DI INGRESSO DA X A Y" and
has a resolvable symbol yields an UPDATE command with entry Y and
oldEntry X, the pending type defaulting to SELL_LIMIT and the side
defaulting to SELL when "SELL" is present else BUY; without a
resolvable symbol no command is produced.  The Italian form of the
spec example behaves exactly as the claim describes; the English
wording of the claim is refuted by
`update_english_phrase_counterexample`. -/
theorem update_phrase_spec :
    (∀ (sfx : List Char) (m : TgMessage) (txt : List Char) (u : UpdInfo),
      m.message = some txt →
      parse_cancel sfx (msgTransform txt) = none →
      parse_update (msgTransform txt) = some u →
      ((extract_symbol sfx (msgTransform txt) = none →
          parse_message sfx m = none) ∧
        (∀ sym, extract_symbol sfx (msgTransform txt) = some sym →
          parse_message sfx m = some
            { cmd_id := tgStr m.id, action := Action.UPDATE, symbol := sym,
              type := (extract_pending_type (msgTransform txt)).getD
                OrderType.SELL_LIMIT,
              side :=
                match extract_side (msgTransform txt) with
                | some sd => sd
                | none =>
                  if containsL (msgTransform txt) litSELL then Side.SELL
                  else Side.BUY,
              entry := u.new_entry, sl := 0, tp := 0,
              old_entry := u.old_entry, order_id := [],
              meta := some { tg_id := m.id, kind := kindUpdate } }))) ∧
    (∀ sfx : List Char,
      parse_message sfx
        { id := 9, message := some c3Txt, reply_to_msg_id := none } =
        some { cmd_id := "tg_9".toList, action := Action.UPDATE,
               symbol := "GBPUSD".toList ++ sfx,
               type := OrderType.SELL_LIMIT, side := Side.SELL,
               entry := ratDec 133100 5, sl := 0, tp := 0,
               old_entry := ratDec 133300 5, order_id := [],
               meta := some { tg_id := 9, kind := kindUpdate } }) := by
  constructor
  · intro sfx m txt u hm hc hu
    have hne : (stripWs txt).isEmpty = false := by
      cases hemp : (stripWs txt).isEmpty with
      | false => rfl
      | true =>
        rw [msgTransform_of_empty hemp] at hu
        have hnone : parse_update ([] : List Char) = none := rfl
        rw [hnone] at hu
        exact absurd hu (by simp)
    have hred : parse_message sfx m = classify sfx m.id (msgTransform txt) := by
      unfold parse_message
      rw [hm]
      simp only []
      rw [hne]
      simp
    constructor
    · intro hsym
      rw [hred]
      exact (classify_update sfx m.id (msgTransform txt) u hc hu).1 hsym
    · intro sym hsym
      rw [hred]
      exact (classify_update sfx m.id (msgTransform txt) u hc hu).2 sym hsym
  · intro sfx
    rfl

/-- Counterexample to C3 as stated: the English example input of the
claim does not match the fixed (Italian) update phrase of the code and
yields no command at all, not an UPDATE command. -/
theorem update_english_phrase_counterexample :
    parse_message sfxSTD
      { id := 10, message := some c3TxtEnglish, reply_to_msg_id := none }
      = none := by
  decide

/-- Witness for C3: the general update rule applied to the concrete
Italian example message. -/
theorem update_phrase_spec_witness :
    parse_message sfxSTD
      { id := 9, message := some c3Txt, reply_to_msg_id := none } =
      some { cmd_id := "tg_9".toList, action := Action.UPDATE,
             symbol := "GBPUSD-STD".toList, type := OrderType.SELL_LIMIT,
             side := Side.SELL, entry := ratDec 133100 5, sl := 0, tp := 0,
             old_entry := ratDec 133300 5, order_id := [],
             meta := some { tg_id := 9, kind := kindUpdate } } :=
  (update_phrase_spec.1 sfxSTD
      { id := 9, message := some c3Txt, reply_to_msg_id := none } c3Txt
      { old_entry := ratDec 133300 5, new_entry := ratDec 133100 5 } rfl
      (by decide) (by decide)).2 "GBPUSD-STD".toList (by decide)

/-! ### Claim C8: the market-open rule -/

/-- Classification of a market open after failed cancel and update
parses: resolvable symbol and side plus direct-market phrasing (or no
pending type with the generic at-market phrase) yield an OPEN command
of type MARKET with the sentinel zero entry. -/
theorem classify_market (sfx : List Char) (id : Nat) (t : List Char)
    (sym : List Char) (sd : Side) (hc : parse_cancel sfx t = none)
    (hu : parse_update t = none) (hsym : extract_symbol sfx t = some sym)
    (hsd : extract_side t = some sd)
    (hmk : is_market_direct t = true ∨
      (extract_pending_type t = none ∧ containsL t litAMERCATO = true)) :
    classify sfx id t = some
      { cmd_id := tgStr id, action := Action.OPEN, symbol := sym,
        type := OrderType.MARKET, side := sd, entry := 0,
        sl := (extract_entry_sl_tp t).sl, tp := (extract_entry_sl_tp t).tp,
        old_entry := 0, order_id := [],
        meta := some { tg_id := id, kind := kindMarket } } := by
  have hcond : (is_market_direct t ||
      ((extract_pending_type t).isNone && containsL t litAMERCATO)) = true := by
    rcases hmk with h | ⟨h1, h2⟩
    · rw [h]
      rfl
    · rw [h1, h2]
      simp
  simp only [classify]
  rw [hc]
  simp only []
  rw [hu]
  simp only []
  rw [hsym]
  simp only []
  rw [hsd]
  simp only []
  rw [if_pos hcond]

/-- C8 (amended).  When neither the cancel rule nor the update rule
matched first, a message with a resolvable symbol and side showing
direct-market phrasing (either keyword pattern), or with no pending
type but the generic at-market phrase, yields an OPEN command with
orderType MARKET, the sentinel zero entry, and stop-loss/take-profit
from the labelled extractors; the spec example behaves exactly so.
The precedence qualification is forced by
`market_precedence_counterexample`. -/
theorem market_open_spec :
    (∀ (sfx : List Char) (m : TgMessage) (txt sym : List Char) (sd : Side),
      m.message = some txt →
      parse_cancel sfx (msgTransform txt) = none →
      parse_update (msgTransform txt) = none →
      extract_symbol sfx (msgTransform txt) = some sym →
      extract_side (msgTransform txt) = some sd →
      (is_market_direct (msgTransform txt) = true ∨
        (extract_pending_type (msgTransform txt) = none ∧
          containsL (msgTransform txt) litAMERCATO = true)) →
      parse_message sfx m = some
        { cmd_id := tgStr m.id, action := Action.OPEN, symbol := sym,
          type := OrderType.MARKET, side := sd, entry := 0,
          sl := (extract_entry_sl_tp (msgTransform txt)).sl,
          tp := (extract_entry_sl_tp (msgTransform txt)).tp,
          old_entry := 0, order_id := [],
          meta := some { tg_id := m.id, kind := kindMarket } }) ∧
    (∀ sfx : List Char,
      parse_message sfx
        { id := 7, message := some c8Txt, reply_to_msg_id := none } =
        some { cmd_id := "tg_7".toList, action := Action.OPEN,
               symbol := "CADCHF".toList ++ sfx, type := OrderType.MARKET,
               side := Side.BUY, entry := 0, sl := 0, tp := 0,
               old_entry := 0, order_id := [],
               meta := some { tg_id := 7, kind := kindMarket } }) := by
  constructor
  · intro sfx m txt sym sd hm hc hu hsym hsd hmk
    have hne : (stripWs txt).isEmpty = false := by
      cases hemp : (stripWs txt).isEmpty with
      | false => rfl
      | true =>
        rw [msgTransform_of_empty hemp] at hsym
        have hnone : extract_symbol sfx ([] : List Char) = none := rfl
        rw [hnone] at hsym
        exact absurd hsym (by simp)
    have hred : parse_message sfx m = classify sfx m.id (msgTransform txt) := by
      unfold parse_message
      rw [hm]
      simp only []
      rw [hne]
      simp
    rw [hred]
    exact classify_market sfx m.id (msgTransform txt) sym sd hc hu hsym hsd hmk
  · intro sfx
    rfl

/-- Counterexample to C8 as stated: a message with resolvable symbol
and side and direct-market phrasing is nonetheless classified as
CANCEL, because the cancel rule runs first. -/
theorem market_precedence_counterexample :
    (extract_symbol sfxSTD (msgTransform c8CancelTxt)).isSome = true ∧
    (extract_side (msgTransform c8CancelTxt)).isSome = true ∧
    is_market_direct (msgTransform c8CancelTxt) = true ∧
    parse_message sfxSTD
      { id := 13, message := some c8CancelTxt, reply_to_msg_id := none } =
      some { cmd_id := "tg_13".toList, action := Action.CANCEL,
             symbol := "CADCHF-STD".toList, type := OrderType.BUY_LIMIT,
             side := Side.BUY, entry := 0, sl := 0, tp := 0, old_entry := 0,
             order_id := [],
             meta := some { tg_id := 13, kind := kindCancel } } :=
  ⟨by decide, by decide, by decide, by decide⟩

/-- Witness for C8: the general market rule applied to the concrete
spec example message. -/
theorem market_open_spec_witness :
    parse_message sfxSTD
      { id := 7, message := some c8Txt, reply_to_msg_id := none } =
      some { cmd_id := "tg_7".toList, action := Action.OPEN,
             symbol := "CADCHF-STD".toList, type := OrderType.MARKET,
             side := Side.BUY, entry := 0, sl := 0, tp := 0, old_entry := 0,
             order_id := [],
             meta := some { tg_id := 7, kind := kindMarket } } :=
  market_open_spec.1 sfxSTD
    { id := 7, message := some c8Txt, reply_to_msg_id := none } c8Txt
    "CADCHF-STD".toList Side.BUY rfl (by decide) (by decide) (by decide)
    (by decide) (Or.inl (by decide))

/-! ### Claim C7: bounded eviction of the dedup store -/

theorem filter_length_partition {α : Type} (p : α → Bool) (l : List α) :
    (l.filter p).length + (l.filter (fun x => !(p x))).length = l.length := by
  induction l with
  | nil => simp
  | cons x xs ih =>
    cases hx : p x <;> simp [List.filter, hx, ← ih] <;> omega

theorem nodup_keys_upsert {κ α : Type} [DecidableEq κ] {l : List (κ × α)}
    (hnd : (l.map Prod.fst).Nodup) (k : κ) (v : α) :
    ((upsert k v l).map Prod.fst).Nodup := by
  cases hl : lookupL k l with
  | some w => rw [keys_upsert_some hl v]; exact hnd
  | none =>
    rw [upsert_of_lookupL_none hl v, List.map_append]
    simp only [List.map_cons, List.map_nil]
    rw [List.nodup_append]
    refine ⟨hnd, List.nodup_singleton k, ?_⟩
    intro a ha hb
    simp only [List.mem_singleton] at hb
    subst hb
    exact lookupL_eq_none_iff.mp hl ha

/-- C7.  `mark_processed` records the message id with its timestamp;
whenever the table then exceeds 20000 entries it removes exactly 2000
entries (leaving exactly 2000 fewer than the table without eviction
would hold), every surviving entry was in the recorded table, and every
removed entry has a timestamp not larger than that of any surviving
entry. -/
theorem mark_processed_eviction (st : List (Nat × Nat)) (id ts : Nat)
    (hnd : (st.map Prod.fst).Nodup)
    (hlen : 20000 < (upsert id ts st).length) :
    lookupL id (upsert id ts st) = some ts ∧
    (mark_processed st id ts).length + 2000 = (upsert id ts st).length ∧
    (∀ kv ∈ mark_processed st id ts, kv ∈ upsert id ts st) ∧
    (∀ u ∈ upsert id ts st, u ∉ mark_processed st id ts →
      ∀ v ∈ mark_processed st id ts, u.2 ≤ v.2) := by
  have hmark : mark_processed st id ts =
      (upsert id ts st).filter (fun kv =>
        !((((sortByTs (upsert id ts st)).take 2000).map Prod.fst).contains kv.1)) := by
    unfold mark_processed
    rw [if_pos hlen]
  have hnd2 : ((upsert id ts st).map Prod.fst).Nodup := nodup_keys_upsert hnd id ts
  have hperm : List.Perm (sortByTs (upsert id ts st)) (upsert id ts st) :=
    sortByTs_perm (upsert id ts st)
  have hndS : ((sortByTs (upsert id ts st)).map Prod.fst).Nodup :=
    (List.Perm.nodup_iff (hperm.map Prod.fst)).mpr hnd2
  have hsplit : (sortByTs (upsert id ts st)).take 2000 ++
      (sortByTs (upsert id ts st)).drop 2000 = sortByTs (upsert id ts st) :=
    List.take_append_drop 2000 (sortByTs (upsert id ts st))
  have hdisj : ∀ a ∈ ((sortByTs (upsert id ts st)).take 2000).map Prod.fst,
      a ∉ ((sortByTs (upsert id ts st)).drop 2000).map Prod.fst := by
    have := hndS
    rw [← hsplit, List.map_append] at this
    exact (List.nodup_append.mp this).2.2
  refine ⟨lookupL_upsert_self id ts st, ?_, ?_, ?_⟩
  · -- counting
    rw [hmark]
    have hpart := filter_length_partition (fun kv : Nat × Nat =>
      !((((sortByTs (upsert id ts st)).take 2000).map Prod.fst).contains kv.1))
      (upsert id ts st)
    have hcount : ((upsert id ts st).filter (fun kv : Nat × Nat =>
        !(!((((sortByTs (upsert id ts st)).take 2000).map Prod.fst).contains kv.1)))).length
        = 2000 := by
      have hps : ((upsert id ts st).filter (fun kv : Nat × Nat =>
          !(!((((sortByTs (upsert id ts st)).take 2000).map Prod.fst).contains kv.1)))).length
          = ((sortByTs (upsert id ts st)).filter (fun kv : Nat × Nat =>
          !(!((((sortByTs (upsert id ts st)).take 2000).map Prod.fst).contains kv.1)))).length :=
        (List.Perm.filter _ hperm).length_eq.symm
      have hsp2 : (sortByTs (upsert id ts st)).filter (fun kv : Nat × Nat =>
          !(!((((sortByTs (upsert id ts st)).take 2000).map Prod.fst).contains kv.1)))
          = ((sortByTs (upsert id ts st)).take 2000 ++
              (sortByTs (upsert id ts st)).drop 2000).filter (fun kv : Nat × Nat =>
          !(!((((sortByTs (upsert id ts st)).take 2000).map Prod.fst).contains kv.1))) := by
        rw [hsplit]
      have h1 : ((sortByTs (upsert id ts st)).take 2000).filter
          (fun kv : Nat × Nat =>
            !(!((((sortByTs (upsert id ts st)).take 2000).map Prod.fst).contains kv.1)))
          = (sortByTs (upsert id ts st)).take 2000 := by
        apply List.filter_eq_self.mpr
        intro kv hkv
        simp only [Bool.not_not]
        have : kv.1 ∈ ((sortByTs (upsert id ts st)).take 2000).map Prod.fst :=
          List.mem_map_of_mem Prod.fst hkv
        simpa using this
      have h2 : ((sortByTs (upsert id ts st)).drop 2000).filter
          (fun kv : Nat × Nat =>
            !(!((((sortByTs (upsert id ts st)).take 2000).map Prod.fst).contains kv.1)))
          = [] := by
        apply List.filter_eq_nil_iff.mpr
        intro kv hkv
        simp only [Bool.not_not]
        intro hcon
        have hmem : kv.1 ∈ ((sortByTs (upsert id ts st)).take 2000).map Prod.fst := by
          simpa using hcon
        exact hdisj kv.1 hmem (List.mem_map_of_mem Prod.fst hkv)
      have hlenS : (sortByTs (upsert id ts st)).length = (upsert id ts st).length :=
        hperm.length_eq
      rw [hps, hsp2, List.filter_append, List.length_append, h1, h2]
      simp [List.length_take]
      omega
    omega
  · -- surviving entries come from the recorded table
    intro kv hkv
    rw [hmark] at hkv
    exact (List.mem_filter.mp hkv).1
  · -- removed entries have the smallest timestamps
    intro u hu hunot v hv
    rw [hmark] at hunot hv
    have hucon : (((sortByTs (upsert id ts st)).take 2000).map Prod.fst).contains u.1
        = true := by
      by_contra hcon
      refine hunot (List.mem_filter.mpr ⟨hu, ?_⟩)
      simp only [Bool.not_eq_true] at hcon
      rw [hcon]
      rfl
    have huk : u.1 ∈ ((sortByTs (upsert id ts st)).take 2000).map Prod.fst := by
      simpa using hucon
    have hvS : v ∈ sortByTs (upsert id ts st) :=
      hperm.symm.subset (List.mem_filter.mp hv).1
    have hvk : v.1 ∉ ((sortByTs (upsert id ts st)).take 2000).map Prod.fst := by
      have := (List.mem_filter.mp hv).2
      simpa using this
    have huS : u ∈ sortByTs (upsert id ts st) := hperm.symm.subset hu
    have hut : u ∈ (sortByTs (upsert id ts st)).take 2000 := by
      rw [← hsplit] at huS
      rcases List.mem_append.mp huS with h | h
      · exact h
      · exact absurd (List.mem_map_of_mem Prod.fst h) (hdisj u.1 huk)
    have hvd : v ∈ (sortByTs (upsert id ts st)).drop 2000 := by
      rw [← hsplit] at hvS
      rcases List.mem_append.mp hvS with h | h
      · exact absurd (List.mem_map_of_mem Prod.fst h) hvk
      · exact h
    have hpw := sortByTs_pairwise (upsert id ts st)
    rw [← hsplit] at hpw
    exact (List.pairwise_append.mp hpw).2.2 u hut v hvd

/-- A concrete dedup table with `n` distinct keys. -/
def mkEntries : Nat → List (Nat × Nat)
  | 0 => []
  | n + 1 => (n, n) :: mkEntries n

theorem mkEntries_length (n : Nat) : (mkEntries n).length = n := by
  induction n with
  | zero => rfl
  | succ n ih => simp [mkEntries, ih]

theorem mkEntries_keys_lt (n : Nat) :
    ∀ k ∈ (mkEntries n).map Prod.fst, k < n := by
  induction n with
  | zero => intro k hk; simp [mkEntries] at hk
  | succ n ih =>
    intro k hk
    simp only [mkEntries, List.map_cons, List.mem_cons] at hk
    rcases hk with rfl | hk
    · omega
    · exact Nat.lt_succ_of_lt (ih k hk)

theorem mkEntries_keys_nodup (n : Nat) :
    ((mkEntries n).map Prod.fst).Nodup := by
  induction n with
  | zero => simp [mkEntries]
  | succ n ih =>
    simp only [mkEntries, List.map_cons]
    refine List.nodup_cons.mpr ⟨?_, ih⟩
    intro hmem
    exact absurd (mkEntries_keys_lt n n hmem) (by omega)

theorem mkEntries_lookupL_fresh (n k : Nat) (h : n ≤ k) :
    lookupL k (mkEntries n) = none := by
  rw [lookupL_eq_none_iff]
  intro hmem
  exact absurd (mkEntries_keys_lt n k hmem) (by omega)

/-- Witness for C7 at a concrete table of 20001 entries. -/
theorem mark_processed_eviction_witness :
    lookupL 30000 (upsert 30000 99 (mkEntries 20001)) = some 99 ∧
    (mark_processed (mkEntries 20001) 30000 99).length + 2000 =
      (upsert 30000 99 (mkEntries 20001)).length ∧
    (∀ kv ∈ mark_processed (mkEntries 20001) 30000 99,
      kv ∈ upsert 30000 99 (mkEntries 20001)) ∧
    (∀ u ∈ upsert 30000 99 (mkEntries 20001),
      u ∉ mark_processed (mkEntries 20001) 30000 99 →
      ∀ v ∈ mark_processed (mkEntries 20001) 30000 99, u.2 ≤ v.2) :=
  mark_processed_eviction (mkEntries 20001) 30000 99
    (mkEntries_keys_nodup 20001)
    (by
      rw [upsert_of_lookupL_none (mkEntries_lookupL_fresh 20001 30000 (by omega)) 99]
      rw [List.length_append, mkEntries_length]
      simp)

/-! ### Claim C9: the CSV row -/

theorem toNat_ofNat_digitRange {m : Nat} (h1 : 48 ≤ m) (h2 : m ≤ 57) :
    (Char.ofNat m).toNat = m := by
  interval_cases m <;> rfl

theorem natDigitsAux_length_le (f : Nat) :
    ∀ m k : Nat, m < 10 ^ k → k ≤ f → (natDigitsAux f m).length ≤ k := by
  induction f with
  | zero => intro m k _ _; simp [natDigitsAux]
  | succ f ih =>
    intro m k hm hk
    cases m with
    | zero => simp [natDigitsAux]
    | succ m =>
      cases k with
      | zero => simp at hm
      | succ k =>
        simp only [natDigitsAux, List.length_cons]
        have hdiv : (m + 1) / 10 < 10 ^ k := by
          rw [Nat.div_lt_iff_lt_mul (by omega)]
          calc m + 1 < 10 ^ (k + 1) := hm
          _ = 10 ^ k * 10 := by ring
        have := ih ((m + 1) / 10) k hdiv (by omega)
        omega

theorem natDigitsAux_chars (f : Nat) :
    ∀ m : Nat, ∀ c ∈ natDigitsAux f m, ∃ d, d < 10 ∧ c = Char.ofNat (48 + d) := by
  induction f with
  | zero => intro m c hc; simp [natDigitsAux] at hc
  | succ f ih =>
    intro m c hc
    cases m with
    | zero => simp [natDigitsAux] at hc
    | succ m =>
      simp only [natDigitsAux, List.mem_cons] at hc
      rcases hc with rfl | hc
      · exact ⟨(m + 1) % 10, Nat.mod_lt _ (by omega), rfl⟩
      · exact ih _ c hc

theorem natToDigits_not_dot (m : Nat) : ∀ c ∈ natToDigits m, ¬(c = '.') := by
  intro c hc
  unfold natToDigits at hc
  by_cases hm : m = 0
  · rw [if_pos hm] at hc
    simp at hc
    subst hc
    decide
  · rw [if_neg hm, List.mem_reverse] at hc
    obtain ⟨d, hd, rfl⟩ := natDigitsAux_chars 40 m c hc
    intro hdot
    have h1 : (Char.ofNat (48 + d)).toNat = 48 + d :=
      toNat_ofNat_digitRange (by omega) (by omega)
    rw [hdot] at h1
    simp at h1
    omega

theorem natToDigits_length_le5 (m : Nat) (hm : m < 100000) :
    (natToDigits m).length ≤ 5 := by
  unfold natToDigits
  by_cases h : m = 0
  · simp [h]
  · rw [if_neg h, List.length_reverse]
    exact natDigitsAux_length_le 40 m 5 (by omega) (by omega)

theorem natToDigits_length_pos (m : Nat) : 1 ≤ (natToDigits m).length := by
  unfold natToDigits
  by_cases h : m = 0
  · simp [h]
  · rw [if_neg h, List.length_reverse]
    cases m with
    | zero => exact absurd rfl h
    | succ m => simp [natDigitsAux]

theorem takeWhile_append_all {α : Type} {p : α → Bool} {xs : List α}
    (h : ∀ x ∈ xs, p x = true) (ys : List α) :
    (xs ++ ys).takeWhile p = xs ++ ys.takeWhile p := by
  induction xs with
  | nil => simp
  | cons a as ih =>
    have ha : p a = true := h a (List.mem_cons_self a as)
    simp only [List.cons_append, List.takeWhile_cons, ha, if_true]
    rw [ih (fun x hx => h x (List.mem_cons_of_mem a hx))]

/-- Decomposition of a rendered nonzero numeric cell: integer digits, a
dot, and exactly five fractional characters none of which is a dot. -/
theorem fmt5_parts (q : ℚ) :
    ∃ a b : List Char, fmt5 q = a ++ '.' :: b ∧ b.length = 5 ∧
      (∀ c ∈ b, ¬(c = '.')) ∧ (∀ c ∈ a, ¬(c = '.')) := by
  refine ⟨natToDigits (ratFloorNat (q * 100000 + 1 / 2) / 100000),
    List.replicate
        (5 - (natToDigits (ratFloorNat (q * 100000 + 1 / 2) % 100000)).length) '0' ++
      natToDigits (ratFloorNat (q * 100000 + 1 / 2) % 100000), rfl, ?_, ?_, ?_⟩
  · rw [List.length_append, List.length_replicate]
    have hlt : ratFloorNat (q * 100000 + 1 / 2) % 100000 < 100000 :=
      Nat.mod_lt _ (by omega)
    have := natToDigits_length_le5 _ hlt
    omega
  · intro c hc
    rcases List.mem_append.mp hc with hc | hc
    · rw [List.eq_of_mem_replicate hc]
      decide
    · exact natToDigits_not_dot _ c hc
  · exact natToDigits_not_dot _

/-- A nonzero cell has exactly five characters after its last dot. -/
theorem decCount_fmt5 (q : ℚ) : decCount (fmt5 q) = 5 := by
  obtain ⟨a, b, he, hb5, hbnd, _⟩ := fmt5_parts q
  unfold decCount
  rw [he]
  have hrev : (a ++ '.' :: b).reverse = b.reverse ++ '.' :: a.reverse := by
    simp
  rw [hrev]
  rw [takeWhile_append_all (p := fun c => !(c = '.'))
    (fun x hx => by
      have := hbnd x (List.mem_reverse.mp hx)
      simpa using this) ('.' :: a.reverse)]
  simp [hb5]

theorem dot_mem_fmt5 (q : ℚ) : '.' ∈ fmt5 q := by
  obtain ⟨a, b, he, _, _, _⟩ := fmt5_parts q
  rw [he]
  exact List.mem_append.mpr (Or.inr (List.mem_cons_self _ _))

/-- C9.  For every emitted command (a parse result with its order id
stamped on), the tabular output row has exactly the ten columns
command id, order id, action, symbol, order type, side, entry,
stop-loss, take-profit, old-entry in that order, and each numeric field
renders as the literal "0" when zero and with exactly five decimal
digits when nonzero. -/
theorem csv_row_spec (sfx : List Char) (m : TgMessage) (cmd : Command)
    (oid : List Char) (h : parse_message sfx m = some cmd) :
    csvRowOf { cmd with order_id := oid } =
      [cmd.cmd_id, oid, actionStr cmd.action, cmd.symbol, typeStr cmd.type,
        sideStr cmd.side, fmtNum cmd.entry, fmtNum cmd.sl, fmtNum cmd.tp,
        fmtNum cmd.old_entry] ∧
    (csvRowOf { cmd with order_id := oid }).length = 10 ∧
    (∀ x ∈ [cmd.entry, cmd.sl, cmd.tp, cmd.old_entry],
      (x = 0 → fmtNum x = ['0']) ∧
      (x ≠ 0 → '.' ∈ fmtNum x ∧ decCount (fmtNum x) = 5)) := by
  refine ⟨rfl, rfl, ?_⟩
  intro x _
  constructor
  · intro hx
    unfold fmtNum
    rw [if_pos hx]
  · intro hx
    unfold fmtNum
    rw [if_neg hx]
    exact ⟨dot_mem_fmt5 x, decCount_fmt5 x⟩

/-- Witness for C9: the cancel example command of the spec. -/
theorem csv_row_spec_witness :
    csvRowOf { cmd_id := "tg_8".toList, action := Action.CANCEL,
               symbol := "GBPCHF-STD".toList, type := OrderType.BUY_LIMIT,
               side := Side.BUY, entry := ratDec 103900 5, sl := 0, tp := 0,
               old_entry := 0, order_id := "order_msg8".toList,
               meta := some { tg_id := 8, kind := kindCancel } } =
      ["tg_8".toList, "order_msg8".toList, actionStr Action.CANCEL,
       "GBPCHF-STD".toList, typeStr OrderType.BUY_LIMIT, sideStr Side.BUY,
       fmtNum (ratDec 103900 5), fmtNum 0, fmtNum 0, fmtNum 0] ∧
    (csvRowOf { cmd_id := "tg_8".toList, action := Action.CANCEL,
                symbol := "GBPCHF-STD".toList, type := OrderType.BUY_LIMIT,
                side := Side.BUY, entry := ratDec 103900 5, sl := 0, tp := 0,
                old_entry := 0, order_id := "order_msg8".toList,
                meta := some { tg_id := 8, kind := kindCancel } }).length = 10 ∧
    (∀ x ∈ [ratDec 103900 5, (0 : ℚ), (0 : ℚ), (0 : ℚ)],
      (x = 0 → fmtNum x = ['0']) ∧
      (x ≠ 0 → '.' ∈ fmtNum x ∧ decCount (fmtNum x) = 5)) :=
  csv_row_spec sfxSTD
    { id := 8, message := some "ANNULLARE BUY LIMIT GBP/CHF   (1.03900 )".toList,
      reply_to_msg_id := none }
    { cmd_id := "tg_8".toList, action := Action.CANCEL,
      symbol := "GBPCHF-STD".toList, type := OrderType.BUY_LIMIT,
      side := Side.BUY, entry := ratDec 103900 5, sl := 0, tp := 0,
      old_entry := 0, order_id := [],
      meta := some { tg_id := 8, kind := kindCancel } }
    "order_msg8".toList (by decide)

/-! ### Claim C6: reply-chain resolution -/

/-- After linking, the linking message resolves to the linked order. -/
theorem get_order_id_after_link (db : Db) (mid : Nat) (oid : List Char)
    (cmd : Command) (now : Nat) :
    get_order_id_for_msg (link_message_to_order db mid oid cmd now) mid =
      some oid := by
  unfold get_order_id_for_msg link_message_to_order
  simp only []
  rw [lookupL_upsert_self]
  rfl

/-- Linking against a fresh order id creates the aggregate with the
message as sole member. -/
theorem link_orders_fresh (db : Db) (mid : Nat) (oid : List Char)
    (cmd : Command) (now : Nat) (h : lookupL oid db.orders = none) :
    (link_message_to_order db mid oid cmd now).orders =
      upsert oid
        { order_id := oid, first_msg_id := mid, messages := [mid],
          symbol := cmd.symbol, side := cmd.side, status := statusActive,
          latest_action := cmd.action, created_at := now, updated_at := now }
        db.orders := by
  unfold link_message_to_order
  rw [h]

/-- Linking against an existing aggregate appends the message when it
is not yet a member. -/
theorem link_orders_existing (db : Db) (mid : Nat) (oid : List Char)
    (cmd : Command) (now : Nat) (o : OrderRec)
    (h : lookupL oid db.orders = some o) (hmem : mid ∉ o.messages) :
    (link_message_to_order db mid oid cmd now).orders =
      upsert oid
        { order_id := o.order_id, first_msg_id := o.first_msg_id,
          messages := o.messages ++ [mid], symbol := o.symbol,
          side := o.side, status := o.status, latest_action := cmd.action,
          created_at := o.created_at, updated_at := now }
        db.orders := by
  unfold link_message_to_order
  rw [h]
  simp only [if_neg hmem]

/-- C6.  From a ledger holding none of the three messages (so that in
particular the order id minted from the root is still unused, which is
the ledger well-formedness consequence stated as `ho`), processing a
command-yielding root message and two further command-yielding replies,
each to the immediately preceding message, stamps the root-minted order
id on all three emitted commands, and the order aggregate then lists
exactly the three message ids in arrival order. -/
theorem reply_chain_resolution (sfx : List Char) (s0 : SysState)
    (m1 m2 m3 : TgMessage) (c1 c2 c3 : Command) (now1 now2 now3 : Nat)
    (hr1 : m1.reply_to_msg_id = none)
    (hr2 : m2.reply_to_msg_id = some m1.id)
    (hr3 : m3.reply_to_msg_id = some m2.id)
    (hp1 : parse_message sfx m1 = some c1)
    (hp2 : parse_message sfx m2 = some c2)
    (hp3 : parse_message sfx m3 = some c3)
    (h12 : m1.id ≠ m2.id) (h13 : m1.id ≠ m3.id) (h23 : m2.id ≠ m3.id)
    (hd1 : lookupL m1.id s0.processed = none)
    (hd2 : lookupL m2.id s0.processed = none)
    (hd3 : lookupL m3.id s0.processed = none)
    (hm1 : lookupL m1.id s0.db.messages = none)
    (hm2 : lookupL m2.id s0.db.messages = none)
    (hm3 : lookupL m3.id s0.db.messages = none)
    (ho : lookupL (mintOrderId m1.id) s0.db.orders = none) :
    (handler sfx now3 m3 (handler sfx now2 m2 (handler sfx now1 m1 s0))).out =
      s0.out ++
        [{ c1 with order_id := mintOrderId m1.id },
         { c2 with order_id := mintOrderId m1.id },
         { c3 with order_id := mintOrderId m1.id }] ∧
    ∃ o : OrderRec,
      lookupL (mintOrderId m1.id)
        (handler sfx now3 m3
          (handler sfx now2 m2 (handler sfx now1 m1 s0))).db.orders = some o ∧
      o.messages = [m1.id, m2.id, m3.id] := by
  have hap1 : already_processed s0.processed m1.id = false := by
    unfold already_processed
    rw [hd1]
    rfl
  have e1 : handler sfx now1 m1 s0 =
      { processed := mark_processed s0.processed m1.id now1,
        db := link_message_to_order s0.db m1.id (mintOrderId m1.id)
          { c1 with order_id := mintOrderId m1.id } now1,
        out := s0.out ++ [{ c1 with order_id := mintOrderId m1.id }] } := by
    simp only [handler, hap1, Bool.false_eq_true, if_false, hp1, hr1]
  have hap2 : already_processed
      (mark_processed s0.processed m1.id now1) m2.id = false := by
    unfold already_processed
    rw [mark_processed_lookupL_none (Ne.symm h12) hd2]
    rfl
  have hg2 : get_order_id_for_msg
      (link_message_to_order s0.db m1.id (mintOrderId m1.id)
        { c1 with order_id := mintOrderId m1.id } now1) m1.id =
      some (mintOrderId m1.id) :=
    get_order_id_after_link s0.db m1.id (mintOrderId m1.id) _ now1
  have e2 : handler sfx now2 m2 (handler sfx now1 m1 s0) =
      { processed := mark_processed
          (mark_processed s0.processed m1.id now1) m2.id now2,
        db := link_message_to_order
          (link_message_to_order s0.db m1.id (mintOrderId m1.id)
            { c1 with order_id := mintOrderId m1.id } now1)
          m2.id (mintOrderId m1.id)
          { c2 with order_id := mintOrderId m1.id } now2,
        out := (s0.out ++ [{ c1 with order_id := mintOrderId m1.id }]) ++
          [{ c2 with order_id := mintOrderId m1.id }] } := by
    rw [e1]
    simp only [handler, hap2, Bool.false_eq_true, if_false, hp2, hr2, hg2]
  have hap3 : already_processed
      (mark_processed (mark_processed s0.processed m1.id now1) m2.id now2)
      m3.id = false := by
    unfold already_processed
    rw [mark_processed_lookupL_none (Ne.symm h23)
      (mark_processed_lookupL_none (Ne.symm h13) hd3)]
    rfl
  have hg3 : get_order_id_for_msg
      (link_message_to_order
        (link_message_to_order s0.db m1.id (mintOrderId m1.id)
          { c1 with order_id := mintOrderId m1.id } now1)
        m2.id (mintOrderId m1.id)
        { c2 with order_id := mintOrderId m1.id } now2) m2.id =
      some (mintOrderId m1.id) :=
    get_order_id_after_link _ m2.id (mintOrderId m1.id) _ now2
  have e3 : handler sfx now3 m3
      (handler sfx now2 m2 (handler sfx now1 m1 s0)) =
      { processed := mark_processed (mark_processed
          (mark_processed s0.processed m1.id now1) m2.id now2) m3.id now3,
        db := link_message_to_order
          (link_message_to_order
            (link_message_to_order s0.db m1.id (mintOrderId m1.id)
              { c1 with order_id := mintOrderId m1.id } now1)
            m2.id (mintOrderId m1.id)
            { c2 with order_id := mintOrderId m1.id } now2)
          m3.id (mintOrderId m1.id)
          { c3 with order_id := mintOrderId m1.id } now3,
        out := ((s0.out ++ [{ c1 with order_id := mintOrderId m1.id }]) ++
          [{ c2 with order_id := mintOrderId m1.id }]) ++
          [{ c3 with order_id := mintOrderId m1.id }] } := by
    rw [e2]
    simp only [handler, hap3, Bool.false_eq_true, if_false, hp3, hr3, hg3]
  rw [e3]
  constructor
  · simp
  · have ho1 : (link_message_to_order s0.db m1.id (mintOrderId m1.id)
        { c1 with order_id := mintOrderId m1.id } now1).orders =
        upsert (mintOrderId m1.id)
          { order_id := mintOrderId m1.id, first_msg_id := m1.id,
            messages := [m1.id], symbol := c1.symbol, side := c1.side,
            status := statusActive, latest_action := c1.action,
            created_at := now1, updated_at := now1 } s0.db.orders :=
      link_orders_fresh s0.db m1.id (mintOrderId m1.id) _ now1 ho
    have hl1 : lookupL (mintOrderId m1.id)
        (link_message_to_order s0.db m1.id (mintOrderId m1.id)
          { c1 with order_id := mintOrderId m1.id } now1).orders =
        some { order_id := mintOrderId m1.id, first_msg_id := m1.id,
               messages := [m1.id], symbol := c1.symbol, side := c1.side,
               status := statusActive, latest_action := c1.action,
               created_at := now1, updated_at := now1 } := by
      rw [ho1]
      exact lookupL_upsert_self _ _ _
    have ho2 : (link_message_to_order
        (link_message_to_order s0.db m1.id (mintOrderId m1.id)
          { c1 with order_id := mintOrderId m1.id } now1)
        m2.id (mintOrderId m1.id)
        { c2 with order_id := mintOrderId m1.id } now2).orders =
        upsert (mintOrderId m1.id)
          { order_id := mintOrderId m1.id, first_msg_id := m1.id,
            messages := [m1.id] ++ [m2.id], symbol := c1.symbol,
            side := c1.side, status := statusActive,
            latest_action := c2.action, created_at := now1,
            updated_at := now2 }
          (link_message_to_order s0.db m1.id (mintOrderId m1.id)
            { c1 with order_id := mintOrderId m1.id } now1).orders := by
      refine link_orders_existing _ m2.id (mintOrderId m1.id) _ now2 _ hl1 ?_
      simp only [List.mem_singleton]
      exact Ne.symm h12
    have hl2 : lookupL (mintOrderId m1.id)
        (link_message_to_order
          (link_message_to_order s0.db m1.id (mintOrderId m1.id)
            { c1 with order_id := mintOrderId m1.id } now1)
          m2.id (mintOrderId m1.id)
          { c2 with order_id := mintOrderId m1.id } now2).orders =
        some { order_id := mintOrderId m1.id, first_msg_id := m1.id,
               messages := [m1.id] ++ [m2.id], symbol := c1.symbol,
               side := c1.side, status := statusActive,
               latest_action := c2.action, created_at := now1,
               updated_at := now2 } := by
      rw [ho2]
      exact lookupL_upsert_self _ _ _
    have ho3 : (link_message_to_order
        (link_message_to_order
          (link_message_to_order s0.db m1.id (mintOrderId m1.id)
            { c1 with order_id := mintOrderId m1.id } now1)
          m2.id (mintOrderId m1.id)
          { c2 with order_id := mintOrderId m1.id } now2)
        m3.id (mintOrderId m1.id)
        { c3 with order_id := mintOrderId m1.id } now3).orders =
        upsert (mintOrderId m1.id)
          { order_id := mintOrderId m1.id, first_msg_id := m1.id,
            messages := ([m1.id] ++ [m2.id]) ++ [m3.id],
            symbol := c1.symbol, side := c1.side, status := statusActive,
            latest_action := c3.action, created_at := now1,
            updated_at := now3 }
          (link_message_to_order
            (link_message_to_order s0.db m1.id (mintOrderId m1.id)
              { c1 with order_id := mintOrderId m1.id } now1)
            m2.id (mintOrderId m1.id)
            { c2 with order_id := mintOrderId m1.id } now2).orders := by
      refine link_orders_existing _ m3.id (mintOrderId m1.id) _ now3 _ hl2 ?_
      intro hmem
      rcases List.mem_append.mp hmem with h | h
      · rw [List.mem_singleton] at h
        exact h13 h.symm
      · rw [List.mem_singleton] at h
        exact h23 h.symm
    refine ⟨{ order_id := mintOrderId m1.id, first_msg_id := m1.id,
              messages := ([m1.id] ++ [m2.id]) ++ [m3.id],
              symbol := c1.symbol, side := c1.side, status := statusActive,
              latest_action := c3.action, created_at := now1,
              updated_at := now3 }, ?_, ?_⟩
    · simp only []
      rw [ho3]
      exact lookupL_upsert_self _ _ _
    · simp

/-- Concrete reply chain for the C6 witness: a pending open, an update
replying to it, and a cancel replying to the update. -/
def c6s0 : SysState :=
  { processed := [], db := { messages := [], orders := [] }, out := [] }

def c6m1 : TgMessage :=
  { id := 100,
    message := some
      "BUY LIMIT EUR/USD PREZZO 1.07000 STOP LOSS 1.06500 TAKE PROFIT 1.08000".toList,
    reply_to_msg_id := none }

def c6m2 : TgMessage :=
  { id := 101,
    message := some
      "(SELL LIMIT EUR/USD) - MODIFICARE IL PREZZO DI INGRESSO DA 1.07000 A 1.06000".toList,
    reply_to_msg_id := some 100 }

def c6m3 : TgMessage :=
  { id := 102,
    message := some "ANNULLARE BUY LIMIT EUR/USD (1.06000)".toList,
    reply_to_msg_id := some 101 }

def c6c1 : Command :=
  { cmd_id := "tg_100".toList, action := Action.OPEN,
    symbol := "EURUSD-STD".toList, type := OrderType.BUY_LIMIT,
    side := Side.BUY, entry := ratDec 107000 5, sl := ratDec 106500 5,
    tp := ratDec 108000 5, old_entry := 0, order_id := [],
    meta := some { tg_id := 100, kind := kindPending } }

def c6c2 : Command :=
  { cmd_id := "tg_101".toList, action := Action.UPDATE,
    symbol := "EURUSD-STD".toList, type := OrderType.SELL_LIMIT,
    side := Side.SELL, entry := ratDec 106000 5, sl := 0, tp := 0,
    old_entry := ratDec 107000 5, order_id := [],
    meta := some { tg_id := 101, kind := kindUpdate } }

def c6c3 : Command :=
  { cmd_id := "tg_102".toList, action := Action.CANCEL,
    symbol := "EURUSD-STD".toList, type := OrderType.BUY_LIMIT,
    side := Side.BUY, entry := ratDec 106000 5, sl := 0, tp := 0,
    old_entry := 0, order_id := [],
    meta := some { tg_id := 102, kind := kindCancel } }

/-- Witness for C6 at a concrete three-message reply chain. -/
theorem reply_chain_resolution_witness :
    (handler sfxSTD 30 c6m3
      (handler sfxSTD 20 c6m2 (handler sfxSTD 10 c6m1 c6s0))).out =
      c6s0.out ++
        [{ c6c1 with order_id := mintOrderId c6m1.id },
         { c6c2 with order_id := mintOrderId c6m1.id },
         { c6c3 with order_id := mintOrderId c6m1.id }] ∧
    ∃ o : OrderRec,
      lookupL (mintOrderId c6m1.id)
        (handler sfxSTD 30 c6m3
          (handler sfxSTD 20 c6m2
            (handler sfxSTD 10 c6m1 c6s0))).db.orders = some o ∧
      o.messages = [c6m1.id, c6m2.id, c6m3.id] :=
  reply_chain_resolution sfxSTD c6s0 c6m1 c6m2 c6m3 c6c1 c6c2 c6c3 10 20 30
    rfl rfl rfl (by decide) (by decide) (by decide) (by decide) (by decide)
    (by decide) rfl rfl rfl rfl rfl rfl rfl

/-! ### Claim C2: characterisation of symbol extraction -/

/-- Last character of a prefix, with the ambient previous character as
default: the character the scanner sees before a given position. -/
def lastO : List Char → Option Char → Option Char
  | [], d => d
  | c :: cs, _ => lastO cs (some c)

/-- Occurrence of the slash-separated pair pattern at prefix `pre` of
`u`, capturing the six letters `g`: three uppercase letters, optional
whitespace, a slash, optional whitespace, three uppercase letters, with
negative word boundaries on both sides. -/
def PairAt (u pre g : List Char) : Prop :=
  ∃ (a b c d e f : Char) (s1 s2 post : List Char),
    g = [a, b, c, d, e, f] ∧
    u = pre ++ a :: b :: c :: (s1 ++ '/' :: (s2 ++ d :: e :: f :: post)) ∧
    (isUpperAZ a && isUpperAZ b && isUpperAZ c && isUpperAZ d &&
      isUpperAZ e && isUpperAZ f) = true ∧
    s1.all isSpaceC = true ∧ s2.all isSpaceC = true ∧
    notWordO (lastO pre none) = true ∧ headNotWord post = true

/-- Occurrence of the bare six-letter token pattern at prefix `pre` of
`u`, with negative word boundaries on both sides. -/
def SixAt (u pre g : List Char) : Prop :=
  ∃ (a b c d e f : Char) (post : List Char),
    g = [a, b, c, d, e, f] ∧ u = pre ++ g ++ post ∧
    (isUpperAZ a && isUpperAZ b && isUpperAZ c && isUpperAZ d &&
      isUpperAZ e && isUpperAZ f) = true ∧
    notWordO (lastO pre none) = true ∧ headNotWord post = true

theorem upper_not_space {c : Char} (h : isUpperAZ c = true) :
    isSpaceC c = false := by
  have hb : 65 ≤ c.toNat ∧ c.toNat ≤ 90 := by
    simpa [isUpperAZ] using h
  cases hsp : isSpaceC c with
  | false => rfl
  | true =>
    exfalso
    simp [isSpaceC] at hsp
    omega

theorem upper_word {c : Char} (h : isUpperAZ c = true) : isWordC c = true := by
  simp [isWordC, h]

theorem upper_upperChar {c : Char} (h : isUpperAZ c = true) :
    upperChar c = c := by
  have hb : 65 ≤ c.toNat ∧ c.toNat ≤ 90 := by
    simpa [isUpperAZ] using h
  have hlow : isLowerAZ c = false := by
    cases hl : isLowerAZ c with
    | false => rfl
    | true =>
      exfalso
      simp [isLowerAZ] at hl
      omega
  unfold upperChar
  rw [hlow]
  simp

theorem slash_not_space : isSpaceC '/' = false := rfl

theorem dropWhile_append_all {α : Type} {p : α → Bool} {xs : List α}
    (h : ∀ x ∈ xs, p x = true) (ys : List α) :
    (xs ++ ys).dropWhile p = ys.dropWhile p := by
  induction xs with
  | nil => simp
  | cons a as ih =>
    have ha : p a = true := h a (List.mem_cons_self a as)
    simp only [List.cons_append, List.dropWhile_cons, ha, if_true]
    exact ih (fun x hx => h x (List.mem_cons_of_mem a hx))

theorem dropWhile_eq_self_of_head {α : Type} {p : α → Bool} {c : α}
    (h : p c = false) (cs : List α) : (c :: cs).dropWhile p = c :: cs := by
  simp [List.dropWhile_cons, h]

/-- The pair matcher succeeds on any pair-shaped suffix. -/
theorem matchPairAt_of_shape (prev : Option Char) (a b c d e f : Char)
    (s1 s2 post : List Char)
    (hup : (isUpperAZ a && isUpperAZ b && isUpperAZ c && isUpperAZ d &&
      isUpperAZ e && isUpperAZ f) = true)
    (hs1 : s1.all isSpaceC = true) (hs2 : s2.all isSpaceC = true)
    (hprev : notWordO prev = true) (hpost : headNotWord post = true) :
    matchPairAt prev (a :: b :: c :: (s1 ++ '/' :: (s2 ++ d :: e :: f :: post)))
      = some [a, b, c, d, e, f] := by
  simp only [Bool.and_eq_true] at hup
  obtain ⟨⟨⟨⟨⟨ha, hb2⟩, hc⟩, hd⟩, he⟩, hf⟩ := hup
  have ht3 : take3U (a :: b :: c :: (s1 ++ '/' :: (s2 ++ d :: e :: f :: post)))
      = some ([a, b, c], s1 ++ '/' :: (s2 ++ d :: e :: f :: post)) := by
    simp [take3U, ha, hb2, hc]
  have hds1 : dropSpacesL (s1 ++ '/' :: (s2 ++ d :: e :: f :: post))
      = '/' :: (s2 ++ d :: e :: f :: post) := by
    unfold dropSpacesL
    rw [dropWhile_append_all (fun x hx => (List.all_eq_true.mp hs1) x hx)]
    exact dropWhile_eq_self_of_head slash_not_space _
  have hds2 : dropSpacesL (s2 ++ d :: e :: f :: post)
      = d :: e :: f :: post := by
    unfold dropSpacesL
    rw [dropWhile_append_all (fun x hx => (List.all_eq_true.mp hs2) x hx)]
    exact dropWhile_eq_self_of_head (upper_not_space hd) _
  have ht3b : take3U (d :: e :: f :: post) = some ([d, e, f], post) := by
    simp [take3U, hd, he, hf]
  simp [matchPairAt, hprev, ht3, hds1, hds2, ht3b, hpost]

theorem all_takeWhile {α : Type} (p : α → Bool) (l : List α) :
    (l.takeWhile p).all p = true := by
  induction l with
  | nil => simp
  | cons c cs ih =>
    cases hc : p c <;> simp [List.takeWhile_cons, hc, ih]

theorem dropSpacesL_decomp (l : List Char) :
    ∃ s, l = s ++ dropSpacesL l ∧ s.all isSpaceC = true :=
  ⟨l.takeWhile isSpaceC, (List.takeWhile_append_dropWhile isSpaceC l).symm,
    all_takeWhile isSpaceC l⟩

theorem take3U_some_inv {l g r : List Char} (h : take3U l = some (g, r)) :
    ∃ a b c, l = a :: b :: c :: r ∧ g = [a, b, c] ∧
      (isUpperAZ a && isUpperAZ b && isUpperAZ c) = true := by
  match l with
  | [] => simp [take3U] at h
  | [a] => simp [take3U] at h
  | [a, b] => simp [take3U] at h
  | a :: b :: c :: rest =>
    simp only [take3U] at h
    by_cases hc : (isUpperAZ a && isUpperAZ b && isUpperAZ c) = true
    · rw [if_pos hc] at h
      simp only [Option.some.injEq, Prod.mk.injEq] at h
      exact ⟨a, b, c, by rw [h.2], h.1.symm, hc⟩
    · rw [if_neg hc] at h
      simp at h

theorem matchPairAt_some_inv {prev : Option Char} {l g : List Char}
    (h : matchPairAt prev l = some g) :
    notWordO prev = true ∧
    ∃ (a b c d e f : Char) (s1 s2 post : List Char),
      g = [a, b, c, d, e, f] ∧
      l = a :: b :: c :: (s1 ++ '/' :: (s2 ++ d :: e :: f :: post)) ∧
      (isUpperAZ a && isUpperAZ b && isUpperAZ c && isUpperAZ d &&
        isUpperAZ e && isUpperAZ f) = true ∧
      s1.all isSpaceC = true ∧ s2.all isSpaceC = true ∧
      headNotWord post = true := by
  unfold matchPairAt at h
  by_cases hprev : notWordO prev = true
  swap
  · rw [if_neg ?_] at h
    · simp at h
    · simpa using hprev
  rw [if_pos (by simpa using hprev)] at h
  refine ⟨hprev, ?_⟩
  cases h3 : take3U l with
  | none => rw [h3] at h; simp at h
  | some pr =>
    obtain ⟨g1, r1⟩ := pr
    rw [h3] at h
    simp only [] at h
    obtain ⟨a, b, c, hl, hg1, hup1⟩ := take3U_some_inv h3
    cases hd1 : dropSpacesL r1 with
    | nil => rw [hd1] at h; simp at h
    | cons x r2 =>
      rw [hd1] at h
      by_cases hx : x = '/'
      swap
      · exfalso
        revert h
        match x, hx with
        | x, hx =>
          cases x with
          | mk v hv =>
            intro h
            split at h
            · rename_i heq
              injection heq with h1 h2
              exact hx h1
            · simp at h
      · subst hx
        simp only [] at h
        cases h5 : take3U (dropSpacesL r2) with
        | none => rw [h5] at h; simp at h
        | some pr2 =>
          obtain ⟨g2, r3⟩ := pr2
          rw [h5] at h
          simp only [] at h
          obtain ⟨d, e, f, hl2, hg2, hup2⟩ := take3U_some_inv h5
          by_cases hnw : headNotWord r3 = true
          swap
          · rw [if_neg ?_] at h
            · simp at h
            · simpa using hnw
          rw [if_pos (by simpa using hnw)] at h
          simp only [Option.some.injEq] at h
          obtain ⟨s1, hs1eq, hs1all⟩ := dropSpacesL_decomp r1
          obtain ⟨s2, hs2eq, hs2all⟩ := dropSpacesL_decomp r2
          refine ⟨a, b, c, d, e, f, s1, s2, r3, ?_, ?_, ?_, hs1all, hs2all, hnw⟩
          · rw [← h, hg1, hg2]
            rfl
          · rw [hl]
            rw [hs1eq, hd1] at hl ⊢
            rw [hs2eq, hl2]
          · simp only [Bool.and_eq_true] at hup1 hup2 ⊢
            exact ⟨⟨⟨⟨⟨hup1.1.1, hup1.1.2⟩, hup1.2⟩, hup2.1.1⟩, hup2.1.2⟩, hup2.2⟩

theorem take6U_some_inv {l g r : List Char} (h : take6U l = some (g, r)) :
    ∃ a b c d e f, l = a :: b :: c :: d :: e :: f :: r ∧
      g = [a, b, c, d, e, f] ∧
      (isUpperAZ a && isUpperAZ b && isUpperAZ c && isUpperAZ d &&
        isUpperAZ e && isUpperAZ f) = true := by
  match l with
  | [] => simp [take6U] at h
  | [a] => simp [take6U] at h
  | [a, b] => simp [take6U] at h
  | [a, b, c] => simp [take6U] at h
  | [a, b, c, d] => simp [take6U] at h
  | [a, b, c, d, e] => simp [take6U] at h
  | a :: b :: c :: d :: e :: f :: rest =>
    simp only [take6U] at h
    by_cases hc : (isUpperAZ a && isUpperAZ b && isUpperAZ c && isUpperAZ d &&
        isUpperAZ e && isUpperAZ f) = true
    · rw [if_pos hc] at h
      simp only [Option.some.injEq, Prod.mk.injEq] at h
      exact ⟨a, b, c, d, e, f, by rw [h.2], h.1.symm, hc⟩
    · rw [if_neg hc] at h
      simp at h

theorem matchSixAt_of_shape (prev : Option Char) (a b c d e f : Char)
    (post : List Char)
    (hup : (isUpperAZ a && isUpperAZ b && isUpperAZ c && isUpperAZ d &&
      isUpperAZ e && isUpperAZ f) = true)
    (hprev : notWordO prev = true) (hpost : headNotWord post = true) :
    matchSixAt prev (a :: b :: c :: d :: e :: f :: post)
      = some [a, b, c, d, e, f] := by
  have h6 : take6U (a :: b :: c :: d :: e :: f :: post)
      = some ([a, b, c, d, e, f], post) := by
    simp [take6U, hup]
  simp [matchSixAt, hprev, h6, hpost]

theorem matchSixAt_some_inv {prev : Option Char} {l g : List Char}
    (h : matchSixAt prev l = some g) :
    notWordO prev = true ∧
    ∃ (a b c d e f : Char) (post : List Char),
      g = [a, b, c, d, e, f] ∧ l = a :: b :: c :: d :: e :: f :: post ∧
      (isUpperAZ a && isUpperAZ b && isUpperAZ c && isUpperAZ d &&
        isUpperAZ e && isUpperAZ f) = true ∧
      headNotWord post = true := by
  unfold matchSixAt at h
  by_cases hprev : notWordO prev = true
  swap
  · rw [if_neg ?_] at h
    · simp at h
    · simpa using hprev
  rw [if_pos (by simpa using hprev)] at h
  refine ⟨hprev, ?_⟩
  cases h6 : take6U l with
  | none => rw [h6] at h; simp at h
  | some pr =>
    obtain ⟨g1, r⟩ := pr
    rw [h6] at h
    simp only [] at h
    obtain ⟨a, b, c, d, e, f, hl, hg1, hup⟩ := take6U_some_inv h6
    by_cases hnw : headNotWord r = true
    swap
    · rw [if_neg ?_] at h
      · simp at h
      · simpa using hnw
    rw [if_pos (by simpa using hnw)] at h
    simp only [Option.some.injEq] at h
    exact ⟨a, b, c, d, e, f, r, by rw [← h, hg1], hl, hup, hnw⟩

/-! Search lemmas: the scanners return the leftmost match. -/

theorem findPairAux_isSome (pre : List Char) :
    ∀ (rest : List Char) (prev : Option Char) (g : List Char),
      matchPairAt (lastO pre prev) rest = some g →
      (findPairAux prev (pre ++ rest)).isSome = true := by
  induction pre with
  | nil =>
    intro rest prev g h
    obtain ⟨-, a, b, c, d, e, f, s1, s2, post, -, hrest, -, -, -, -⟩ :=
      matchPairAt_some_inv h
    rw [List.nil_append, hrest]
    have h2 : matchPairAt prev
        (a :: b :: c :: (s1 ++ '/' :: (s2 ++ d :: e :: f :: post)))
        = some g := by
      rw [← hrest]
      exact h
    simp [findPairAux, h2]
  | cons p ps ih =>
    intro rest prev g h
    rw [List.cons_append]
    cases hm : matchPairAt prev (p :: (ps ++ rest)) with
    | some g2 => simp [findPairAux, hm]
    | none =>
      have hstep : findPairAux prev (p :: (ps ++ rest)) =
          findPairAux (some p) (ps ++ rest) := by
        simp [findPairAux, hm]
      rw [hstep]
      exact ih rest (some p) g h

theorem findPairAux_eq_first (pre : List Char) :
    ∀ (rest : List Char) (prev : Option Char) (g : List Char),
      matchPairAt (lastO pre prev) rest = some g →
      (∀ pre2 rest2, pre2.length < pre.length →
        pre2 ++ rest2 = pre ++ rest →
        matchPairAt (lastO pre2 prev) rest2 = none) →
      findPairAux prev (pre ++ rest) = some g := by
  induction pre with
  | nil =>
    intro rest prev g h _
    obtain ⟨-, a, b, c, d, e, f, s1, s2, post, -, hrest, -, -, -, -⟩ :=
      matchPairAt_some_inv h
    rw [List.nil_append, hrest]
    have h2 : matchPairAt prev
        (a :: b :: c :: (s1 ++ '/' :: (s2 ++ d :: e :: f :: post)))
        = some g := by
      rw [← hrest]
      exact h
    simp [findPairAux, h2]
  | cons p ps ih =>
    intro rest prev g h hmin
    have h0 : matchPairAt prev (p :: (ps ++ rest)) = none := by
      have := hmin [] (p :: (ps ++ rest)) (by simp) (by simp)
      exact this
    rw [List.cons_append]
    have hstep : findPairAux prev (p :: (ps ++ rest)) =
        findPairAux (some p) (ps ++ rest) := by
      simp [findPairAux, h0]
    rw [hstep]
    refine ih rest (some p) g h ?_
    intro pre2 rest2 hlen heq
    have := hmin (p :: pre2) rest2 (by simpa using hlen)
      (by rw [List.cons_append, List.cons_append, heq])
    exact this

theorem findPairAux_some_inv :
    ∀ (l : List Char) (prev : Option Char) (g : List Char),
      findPairAux prev l = some g →
      ∃ pre rest, l = pre ++ rest ∧ matchPairAt (lastO pre prev) rest = some g := by
  intro l
  induction l with
  | nil => intro prev g h; simp [findPairAux] at h
  | cons c cs ih =>
    intro prev g h
    cases hm : matchPairAt prev (c :: cs) with
    | some g2 =>
      have hg : g2 = g := by
        simp [findPairAux, hm] at h
        exact h
      exact ⟨[], c :: cs, rfl, hg ▸ hm⟩
    | none =>
      have h2 : findPairAux (some c) cs = some g := by
        simpa [findPairAux, hm] using h
      obtain ⟨pre, rest, heq, hm2⟩ := ih (some c) g h2
      exact ⟨c :: pre, rest, by rw [List.cons_append, heq], hm2⟩

theorem findSixAux_isSome (pre : List Char) :
    ∀ (rest : List Char) (prev : Option Char) (g : List Char),
      matchSixAt (lastO pre prev) rest = some g →
      (findSixAux prev (pre ++ rest)).isSome = true := by
  induction pre with
  | nil =>
    intro rest prev g h
    obtain ⟨-, a, b, c, d, e, f, post, -, hrest, -, -⟩ := matchSixAt_some_inv h
    rw [List.nil_append, hrest]
    have h2 : matchSixAt prev (a :: b :: c :: d :: e :: f :: post) = some g := by
      rw [← hrest]
      exact h
    simp [findSixAux, h2]
  | cons p ps ih =>
    intro rest prev g h
    rw [List.cons_append]
    cases hm : matchSixAt prev (p :: (ps ++ rest)) with
    | some g2 => simp [findSixAux, hm]
    | none =>
      have hstep : findSixAux prev (p :: (ps ++ rest)) =
          findSixAux (some p) (ps ++ rest) := by
        simp [findSixAux, hm]
      rw [hstep]
      exact ih rest (some p) g h

theorem findSixAux_eq_first (pre : List Char) :
    ∀ (rest : List Char) (prev : Option Char) (g : List Char),
      matchSixAt (lastO pre prev) rest = some g →
      (∀ pre2 rest2, pre2.length < pre.length →
        pre2 ++ rest2 = pre ++ rest →
        matchSixAt (lastO pre2 prev) rest2 = none) →
      findSixAux prev (pre ++ rest) = some g := by
  induction pre with
  | nil =>
    intro rest prev g h _
    obtain ⟨-, a, b, c, d, e, f, post, -, hrest, -, -⟩ := matchSixAt_some_inv h
    rw [List.nil_append, hrest]
    have h2 : matchSixAt prev (a :: b :: c :: d :: e :: f :: post) = some g := by
      rw [← hrest]
      exact h
    simp [findSixAux, h2]
  | cons p ps ih =>
    intro rest prev g h hmin
    have h0 : matchSixAt prev (p :: (ps ++ rest)) = none := by
      have := hmin [] (p :: (ps ++ rest)) (by simp) (by simp)
      exact this
    rw [List.cons_append]
    have hstep : findSixAux prev (p :: (ps ++ rest)) =
        findSixAux (some p) (ps ++ rest) := by
      simp [findSixAux, h0]
    rw [hstep]
    refine ih rest (some p) g h ?_
    intro pre2 rest2 hlen heq
    exact hmin (p :: pre2) rest2 (by simpa using hlen)
      (by rw [List.cons_append, List.cons_append, heq])

theorem findSixAux_some_inv :
    ∀ (l : List Char) (prev : Option Char) (g : List Char),
      findSixAux prev l = some g →
      ∃ pre rest, l = pre ++ rest ∧ matchSixAt (lastO pre prev) rest = some g := by
  intro l
  induction l with
  | nil => intro prev g h; simp [findSixAux] at h
  | cons c cs ih =>
    intro prev g h
    cases hm : matchSixAt prev (c :: cs) with
    | some g2 =>
      have hg : g2 = g := by
        simp [findSixAux, hm] at h
        exact h
      exact ⟨[], c :: cs, rfl, hg ▸ hm⟩
    | none =>
      have h2 : findSixAux (some c) cs = some g := by
        simpa [findSixAux, hm] using h
      obtain ⟨pre, rest, heq, hm2⟩ := ih (some c) g h2
      exact ⟨c :: pre, rest, by rw [List.cons_append, heq], hm2⟩

theorem dropWhile_eq_self_all {α : Type} {p : α → Bool} {l : List α}
    (h : ∀ c ∈ l, p c = false) : l.dropWhile p = l := by
  cases l with
  | nil => rfl
  | cons c cs => exact dropWhile_eq_self_of_head (h c (List.mem_cons_self c cs)) cs

theorem stripWs_eq_self {g : List Char} (h : ∀ c ∈ g, isSpaceC c = false) :
    stripWs g = g := by
  unfold stripWs
  rw [dropWhile_eq_self_all h,
    dropWhile_eq_self_all (fun c hc => h c (List.mem_reverse.mp hc)),
    List.reverse_reverse]

/-- On an all-uppercase capture, `normalize_symbol` only appends the
configured suffix. -/
theorem normalize_symbol_upper (sfx g : List Char)
    (h : g.all isUpperAZ = true) : normalize_symbol sfx g = g ++ sfx := by
  have hall := List.all_eq_true.mp h
  have hns : ∀ c ∈ g, isSpaceC c = false := fun c hc => upper_not_space (hall c hc)
  have hstrip : stripWs g = g := stripWs_eq_self hns
  have hupper : upperList g = g := by
    unfold upperList
    calc g.map upperChar = g.map (fun c => c) :=
          List.map_congr_left (fun c hc => upper_upperChar (hall c hc))
      _ = g := by simp
  have hbound : ∀ c ∈ g, 65 ≤ c.toNat ∧ c.toNat ≤ 90 := by
    intro c hc
    simpa [isUpperAZ] using hall c hc
  have hf1 : g.filter (fun c => !(c = ' ')) = g := by
    apply List.filter_eq_self.mpr
    intro c hc
    have hne : c ≠ ' ' := by
      intro he
      have := (hbound c hc).1
      rw [he] at this
      exact absurd this (by decide)
    simp [hne]
  have hf2 : g.filter (fun c => !(c = '/')) = g := by
    apply List.filter_eq_self.mpr
    intro c hc
    have hne : c ≠ '/' := by
      intro he
      have := (hbound c hc).1
      rw [he] at this
      exact absurd this (by decide)
    simp [hne]
  unfold normalize_symbol
  rw [hstrip, hupper, hf1, hf2]

theorem findPairAux_none_of_nopair (u : List Char)
    (hnp : ∀ pre g, ¬PairAt u pre g) : findPairAux none u = none := by
  cases hf : findPairAux none u with
  | none => rfl
  | some g =>
    exfalso
    obtain ⟨pre, rest, heq, hm⟩ := findPairAux_some_inv u none g hf
    obtain ⟨hb, a, b, c, d, e, f, s1, s2, post, hg, hrest, hup, hs1, hs2,
      hpost⟩ := matchPairAt_some_inv hm
    exact hnp pre g ⟨a, b, c, d, e, f, s1, s2, post, hg,
      by rw [heq, hrest], hup, hs1, hs2, hb, hpost⟩

theorem findSixAux_none_of_nosix (u : List Char)
    (hns : ∀ pre g, ¬SixAt u pre g) : findSixAux none u = none := by
  cases hf : findSixAux none u with
  | none => rfl
  | some g =>
    exfalso
    obtain ⟨pre, rest, heq, hm⟩ := findSixAux_some_inv u none g hf
    obtain ⟨hb, a, b, c, d, e, f, post, hg, hrest, hup, hpost⟩ :=
      matchSixAt_some_inv hm
    refine hns pre g ⟨a, b, c, d, e, f, post, hg, ?_, hup, hb, hpost⟩
    rw [heq, hrest, hg]
    simp

/-- C2 (amended).  Symbol extraction: the first occurrence of a
three-letter/three-letter pair separated by a mandatory slash with
optional surrounding whitespace yields the six letters with the
configured suffix appended; with no such pair anywhere, the first bare
six-letter token yields the same; with neither present no symbol is
returned.  (The original claim made the slash optional; that is refuted
by `pair_without_slash_counterexample`.) -/
theorem extract_symbol_spec :
    (∀ (sfx text pre g : List Char), PairAt (upperList text) pre g →
      (∀ pre2 g2, pre2.length < pre.length →
        ¬PairAt (upperList text) pre2 g2) →
      extract_symbol sfx text = some (g ++ sfx)) ∧
    (∀ (sfx text pre g : List Char),
      (∀ pre2 g2, ¬PairAt (upperList text) pre2 g2) →
      SixAt (upperList text) pre g →
      (∀ pre2 g2, pre2.length < pre.length →
        ¬SixAt (upperList text) pre2 g2) →
      extract_symbol sfx text = some (g ++ sfx)) ∧
    (∀ (sfx text : List Char),
      (∀ pre g, ¬PairAt (upperList text) pre g) →
      (∀ pre g, ¬SixAt (upperList text) pre g) →
      extract_symbol sfx text = none) := by
  refine ⟨?_, ?_, ?_⟩
  · intro sfx text pre g hp hmin
    obtain ⟨a, b, c, d, e, f, s1, s2, post, hg, hu, hup, hs1, hs2, hbnd,
      hpost⟩ := hp
    have hmatch := matchPairAt_of_shape (lastO pre none) a b c d e f s1 s2
      post hup hs1 hs2 hbnd hpost
    have hfind : findPairAux none (upperList text) = some [a, b, c, d, e, f] := by
      rw [hu]
      refine findPairAux_eq_first pre _ none _ hmatch ?_
      intro pre2 rest2 hlen heq
      cases hm2 : matchPairAt (lastO pre2 none) rest2 with
      | none => rfl
      | some g2 =>
        exfalso
        obtain ⟨hb2, a2, b2, c2, d2, e2, f2, s12, s22, post2, hg2, hrest2,
          hup2, hs12, hs22, hpost2⟩ := matchPairAt_some_inv hm2
        refine hmin pre2 g2 hlen ⟨a2, b2, c2, d2, e2, f2, s12, s22, post2,
          hg2, ?_, hup2, hs12, hs22, hb2, hpost2⟩
        rw [hu, ← heq, hrest2]
    simp only [extract_symbol]
    rw [hfind]
    simp only []
    rw [hg]
    rw [normalize_symbol_upper]
    simp only [Bool.and_eq_true] at hup
    simp [List.all_cons, hup.1.1.1.1.1, hup.1.1.1.1.2, hup.1.1.1.2,
      hup.1.1.2, hup.1.2, hup.2]
  · intro sfx text pre g hnp hs hmin
    obtain ⟨a, b, c, d, e, f, post, hg, hu, hup, hbnd, hpost⟩ := hs
    have hfp : findPairAux none (upperList text) = none :=
      findPairAux_none_of_nopair _ hnp
    have hmatch := matchSixAt_of_shape (lastO pre none) a b c d e f post
      hup hbnd hpost
    have hshape : upperList text = pre ++ (a :: b :: c :: d :: e :: f :: post) := by
      rw [hu, hg]
      simp
    have hfind : findSixAux none (upperList text) = some [a, b, c, d, e, f] := by
      rw [hshape]
      refine findSixAux_eq_first pre _ none _ hmatch ?_
      intro pre2 rest2 hlen heq
      cases hm2 : matchSixAt (lastO pre2 none) rest2 with
      | none => rfl
      | some g2 =>
        exfalso
        obtain ⟨hb2, a2, b2, c2, d2, e2, f2, post2, hg2, hrest2, hup2,
          hpost2⟩ := matchSixAt_some_inv hm2
        refine hmin pre2 g2 hlen ⟨a2, b2, c2, d2, e2, f2, post2, hg2, ?_,
          hup2, hb2, hpost2⟩
        rw [hshape, ← heq, hrest2, hg2]
        simp
    simp only [extract_symbol]
    rw [hfp]
    simp only []
    rw [hfind]
    simp only []
    rw [hg]
    rw [normalize_symbol_upper]
    simp only [Bool.and_eq_true] at hup
    simp [List.all_cons, hup.1.1.1.1.1, hup.1.1.1.1.2, hup.1.1.1.2,
      hup.1.1.2, hup.1.2, hup.2]
  · intro sfx text hnp hns
    have hfp : findPairAux none (upperList text) = none :=
      findPairAux_none_of_nopair _ hnp
    have hfs : findSixAux none (upperList text) = none :=
      findSixAux_none_of_nosix _ hns
    simp only [extract_symbol]
    rw [hfp, hfs]

/-- Counterexample to C2 as stated: a three-letter/three-letter pair
separated by a space but without the slash (the claim allows the slash
to be optional) yields no symbol at all, because the pattern of the
code requires the slash and a six-consecutive-letter token is absent. -/
theorem pair_without_slash_counterexample :
    extract_symbol sfxSTD "CAD CHF".toList = none := by
  decide

/-- Witness for C2: the pair occurrence at the very start of the text
CAD/CHF extracts CADCHF with the suffix appended. -/
theorem extract_symbol_spec_witness :
    extract_symbol sfxSTD "CAD/CHF".toList =
      some ("CADCHF".toList ++ sfxSTD) :=
  extract_symbol_spec.1 sfxSTD "CAD/CHF".toList [] "CADCHF".toList
    ⟨'C', 'A', 'D', 'C', 'H', 'F', [], [], [], rfl, by decide, by decide,
      rfl, rfl, rfl, rfl⟩
    (fun pre2 g2 hlen => absurd hlen (by simp))

end TSP
